import Mathlib

/-!
# Verification of the email-scrubber-core engine

Shallow embedding of the URL-cleaning engine (`src/src/cleaners/LinkCleaner.ts`,
second revision with eagerly compiled patterns) and the tracking-pixel
classifier (`TrackerPixelRemover`).

Modelling conventions:
* Compiled `RegExp` objects are modelled as abstract matchers `String → Bool`
  (a compiled pattern is immutable and a `test` call is pure function
  application).  `null` compiled patterns are `Option.none`.
* The WHATWG `URL` value is modelled by the structure `Url` holding decoded
  query pairs in encounter order; `parseURL` models the `new URL(string)`
  constructor for hierarchical `scheme://host` URLs (ASCII), `serializeUrl`
  models `.href`.  `searchParams.get` returns the first decoded value bound
  to a name; `searchParams.delete` removes every pair with the name.
* `decodeStrict` models `decodeURIComponent` (throws on a malformed percent
  escape, hence `Option`); `decodeLenient` models the never-throwing decoding
  performed by `URLSearchParams` when parsing a query string.
* The unbounded recursion of `LinkCleaner.clean` is modelled with a fuel
  parameter; `cleanUrl`/`cleanStr` supply fuel that is provably sufficient
  (each recursive argument is strictly shorter than its caller's string), so
  the fuelled model computes exactly what the unbounded code computes.
-/

/-! ## Characters and percent-coding -/

def isWsChar (c : Char) : Bool :=
  c = ' ' ∨ c = '\t' ∨ c = '\n' ∨ c = '\r' ∨ c = '\x0b' ∨ c = '\x0c'

def hexDigitChar (n : Nat) : Char :=
  if n < 10 then Char.ofNat (48 + n) else Char.ofNat (55 + n)

def hexVal (c : Char) : Option Nat :=
  if '0' ≤ c ∧ c ≤ '9' then some (c.toNat - 48)
  else if 'A' ≤ c ∧ c ≤ 'F' then some (c.toNat - 55)
  else if 'a' ≤ c ∧ c ≤ 'f' then some (c.toNat - 87)
  else none

/-- One character of `encodeURIComponent` output: alphanumerics are kept,
every other (ASCII) character becomes a `%XX` escape. -/
def encChar (c : Char) : List Char :=
  if c.isAlphanum then [c]
  else ['%', hexDigitChar (c.toNat % 256 / 16), hexDigitChar (c.toNat % 16)]

def encChars : List Char → List Char
  | [] => []
  | c :: cs => encChar c ++ encChars cs

/-- Model of `encodeURIComponent` (ASCII fragment). -/
def encodeURIComponentM (s : String) : String := ⟨encChars s.data⟩

/-- Percent-decoding that fails on a malformed escape: model of
`decodeURIComponent`, which throws `URIError` there. -/
def decodeStrictChars : List Char → Option (List Char)
  | [] => some []
  | '%' :: c₁ :: c₂ :: cs =>
      match hexVal c₁, hexVal c₂ with
      | some h, some l => (decodeStrictChars cs).map (Char.ofNat (16 * h + l) :: ·)
      | _, _ => none
  | '%' :: _ :: [] => none
  | '%' :: [] => none
  | c :: cs => (decodeStrictChars cs).map (c :: ·)

def decodeStrict (s : String) : Option String :=
  (decodeStrictChars s.data).map fun l => ⟨l⟩

/-- Never-failing decoding used by `URLSearchParams` when parsing a query:
valid `%XX` escapes are decoded, `+` becomes a space, anything else is kept. -/
def decodeLenientChars : List Char → List Char
  | [] => []
  | '%' :: c₁ :: c₂ :: cs =>
      match hexVal c₁, hexVal c₂ with
      | some h, some l => Char.ofNat (16 * h + l) :: decodeLenientChars cs
      | _, _ => '%' :: decodeLenientChars (c₁ :: c₂ :: cs)
  | '+' :: cs => ' ' :: decodeLenientChars cs
  | c :: cs => c :: decodeLenientChars cs

def decodeLenient (s : String) : String := ⟨decodeLenientChars s.data⟩

/-! ## Generic list-of-characters splitting -/

/-- Break a character list at the first occurrence of `c`; the second
component is `none` when `c` does not occur. -/
def breakFirst (c : Char) : List Char → List Char × Option (List Char)
  | [] => ([], none)
  | x :: xs =>
      if x = c then ([], some xs)
      else
        let r := breakFirst c xs
        (x :: r.1, r.2)

/-- Split a character list at every occurrence of `c`. -/
def splitAll (c : Char) : List Char → List (List Char)
  | [] => [[]]
  | x :: xs =>
      if x = c then [] :: splitAll c xs
      else
        match splitAll c xs with
        | [] => [[x]]
        | p :: ps => (x :: p) :: ps

/-- Substring containment, the model of JavaScript `String.prototype.includes`
and of an unanchored literal regex test. -/
def containsSub (hay pat : String) : Bool :=
  go hay.data pat.data
where
  go : List Char → List Char → Bool
    | _, [] => true
    | [], _ :: _ => false
    | c :: cs, p => (p.isPrefixOf (c :: cs)) || go cs p

/-! ## The URL value -/

structure Url where
  scheme : String
  host : String
  port : Option String
  path : String
  query : List (String × String)
  fragment : Option String
deriving DecidableEq, Repr

def valuesSumList (q : List (String × String)) : Nat :=
  q.foldr (fun kv acc => kv.2.length + acc) 0

def valuesSum (u : Url) : Nat := valuesSumList u.query

/-- One `name=value` piece of a query string (the piece between two `&`).
Empty pieces are dropped, a piece without `=` gets the empty value; both
sides are decoded leniently — the behaviour of `URLSearchParams`. -/
def parseQueryPiece (p : List Char) : Option (String × String) :=
  if p.isEmpty then none
  else
    match breakFirst '=' p with
    | (k, some v) => some (decodeLenient ⟨k⟩, decodeLenient ⟨v⟩)
    | (k, none) => some (decodeLenient ⟨k⟩, "")

def parseQuery (q : List Char) : List (String × String) :=
  (splitAll '&' q).filterMap parseQueryPiece

/-- Model of `new URL(string)` for hierarchical absolute URLs:
`scheme://host[:port][/path][?query][#fragment]`.  Returns `none` (the
constructor throws) when the shape is not present. -/
def parseURL (s : String) : Option Url :=
  let h := breakFirst '#' s.data
  let q := breakFirst '?' h.1
  match breakFirst ':' q.1 with
  | (sch, some rest) =>
      if sch.isEmpty then none
      else
        match rest with
        | '/' :: '/' :: rest2 =>
            let a := breakFirst '/' rest2
            if a.1.isEmpty then none
            else
              let hp := breakFirst ':' a.1
              some
                { scheme := ⟨sch⟩
                  host := ⟨hp.1⟩
                  port := hp.2.map (fun p => (⟨p⟩ : String))
                  path := match a.2 with
                    | some p => ⟨'/' :: p⟩
                    | none => "/"
                  query := match q.2 with
                    | some qs => parseQuery qs
                    | none => []
                  fragment := h.2.map (fun f => (⟨f⟩ : String)) }
        | _ => none
  | (_, none) => none

def serializeQuery (q : List (String × String)) : String :=
  String.intercalate "&"
    (q.map fun kv => encodeURIComponentM kv.1 ++ "=" ++ encodeURIComponentM kv.2)

/-- Model of `.href`: serialization of the URL value. -/
def serializeUrl (u : Url) : String :=
  u.scheme ++ "://" ++ u.host ++
    (match u.port with | some p => ":" ++ p | none => "") ++
    u.path ++
    (if u.query.isEmpty then "" else "?" ++ serializeQuery u.query) ++
    (match u.fragment with | some f => "#" ++ f | none => "")

example : parseURL "https://x.com/?a=1&b=2" =
    some ⟨"https", "x.com", none, "/", [("a", "1"), ("b", "2")], none⟩ := by decide

example : parseURL "invalid-url" = none := by decide

example : serializeUrl ⟨"https", "x.com", none, "/", [("a", "1"), ("b", "2")], none⟩ =
    "https://x.com/?a=1&b=2" := by decide

example : decodeStrict "%" = none := by decide

example : decodeStrict "a%2Fb" = some "a/b" := by decide

example : containsSub "https://x.com/?a=1" "x.com" = true := by decide

example : parseURL "https://e.org:80/p/q?u=h%3A1&z#frag" =
    some ⟨"https", "e.org", some "80", "/p/q", [("u", "h:1"), ("z", "")], some "frag"⟩ := by
  decide

/-! ## The LinkCleaner (second revision, eagerly compiled patterns) -/

/-- A compiled `RegExp` object: an immutable, pure matcher. -/
abbrev Matcher := String → Bool

/-- `CachedProviderRule`: each field is the compiled combined pattern, `none`
when the pattern list was empty or its compilation failed. -/
structure CachedProviderRule where
  urlPattern : Option Matcher
  rules : Option Matcher
  exceptions : Option Matcher
  redirections : Option Matcher
  referral : Option Matcher

/-- The `LinkCleaner` instance state: the cached providers in the rule
object's key order (`Object.keys` iteration order). -/
structure LinkCleaner where
  providers : List (String × CachedProviderRule)

/-- `matchesPattern`: a `null` pattern matches nothing. -/
def matchesPattern (value : String) : Option Matcher → Bool
  | none => false
  | some m => m value

/-- The provider registered under the reserved `"globalRules"` key. -/
def globalProvider (R : LinkCleaner) : Option CachedProviderRule :=
  (R.providers.find? (fun kv => kv.1 == "globalRules")).map (·.2)

/-- `cleanParams`: delete every query parameter whose name matches the
provider's `rules` or `referral` pattern.  Deletion is by name
(`searchParams.delete`), so every occurrence of a matched name goes. -/
def cleanParams (u : Url) (p : CachedProviderRule) : Url :=
  if p.rules.isNone ∧ p.referral.isNone then u
  else
    { u with
      query := u.query.filter fun kv =>
        !(matchesPattern kv.1 p.rules || matchesPattern kv.1 p.referral) }

/-- The global pass of `clean`. -/
def applyGlobal (R : LinkCleaner) (u : Url) : Url :=
  match globalProvider R with
  | some g => cleanParams u g
  | none => u

def findProviderAux (href : String) : List (String × CachedProviderRule) → Option CachedProviderRule
  | [] => none
  | (name, p) :: rest =>
      if name == "globalRules" then findProviderAux href rest
      else if matchesPattern href p.urlPattern then
        if matchesPattern href p.exceptions then findProviderAux href rest
        else some p
      else findProviderAux href rest

/-- `findProvider`: first provider (in key order, skipping `globalRules`)
whose `urlPattern` matches the URL's `href`, unless the `href` also matches
one of its `exceptions` patterns, in which case the provider is skipped. -/
def findProvider (R : LinkCleaner) (u : Url) : Option CachedProviderRule :=
  findProviderAux (serializeUrl u) R.providers

/-- First value bound to a name: `searchParams.get`. -/
def searchGet (q : List (String × String)) (k : String) : Option String :=
  (q.find? (fun kv => kv.1 == k)).map (·.2)

/-- The redirection loop of `clean`: walk the key list; for a key matching
the redirection pattern whose first bound value is non-empty, try
`recClean (decodeURIComponent value)`; the first success is returned, every
failure (or empty value) just moves on to the next key. -/
def redirectScan (recClean : String → Option Url) (red : Option Matcher)
    (q : List (String × String)) : List String → Option Url
  | [] => none
  | k :: ks =>
      if matchesPattern k red then
        match searchGet q k with
        | some v =>
            if v = "" then redirectScan recClean red q ks
            else
              match decodeStrict v with
              | some d =>
                  match recClean d with
                  | some r => some r
                  | none => redirectScan recClean red q ks
              | none => redirectScan recClean red q ks
        | none => redirectScan recClean red q ks
      else redirectScan recClean red q ks

/-- The body of `LinkCleaner.clean` on a URL value, with a fuel parameter
bounding the redirection recursion depth.  At fuel `0` the current URL is
returned as-is; `cleanUrl` below always supplies provably sufficient fuel,
so the model computes what the (unbounded) code computes. -/
def cleanObjF (R : LinkCleaner) : Nat → Url → Url
  | 0, u => u
  | fuel + 1, u =>
      if u.query.isEmpty then u
      else
        let u1 := applyGlobal R u
        match findProvider R u1 with
        | none => u1
        | some p =>
            match
              (if p.redirections.isSome then
                redirectScan (fun s => (parseURL s).map (cleanObjF R fuel))
                  p.redirections u1.query (u1.query.map (·.1))
              else none)
            with
            | some r => r
            | none => cleanParams u1 p

/-- The redirection-resolution step at a given fuel, named so that theorem
hypotheses can refer to it: `some r` exactly when the code's redirection
loop returns `r`. -/
def redirectResolve (R : LinkCleaner) (fuel : Nat) (u1 : Url)
    (p : CachedProviderRule) : Option Url :=
  if p.redirections.isSome then
    match fuel with
    | 0 => none
    | f + 1 =>
        redirectScan (fun s => (parseURL s).map (cleanObjF R f))
          p.redirections u1.query (u1.query.map (·.1))
  else none

/-- Sufficient fuel for a URL value: one more than the total length of its
query values (every recursive argument is a decoded query value, and query
values shrink strictly across a recursion step). -/
def urlFuel (u : Url) : Nat := valuesSum u + 1

/-- `clean` on a URL object input. -/
def cleanUrl (R : LinkCleaner) (u : Url) : Url := cleanObjF R (urlFuel u) u

inductive CleanErr where
  | invalidUrl
deriving DecidableEq, Repr

/-- `clean` on a string input: an unparseable string throws `InvalidUrl`. -/
def cleanStr (R : LinkCleaner) (s : String) : Except CleanErr Url :=
  match parseURL s with
  | none => .error .invalidUrl
  | some u => .ok (cleanObjF R (urlFuel u) u)

/-- `clean` on its full `string | URL` input type. -/
def cleanInput (R : LinkCleaner) : String ⊕ Url → Except CleanErr Url
  | .inl s => cleanStr R s
  | .inr u => .ok (cleanUrl R u)

section ExamplesClean

example :
    cleanStr ⟨[("g.com", ⟨some (containsSub · "g.com"), some (fun k => k == "gclid"), none, none, none⟩)]⟩
      "https://g.com/s?q=1&gclid=2" =
      .ok ⟨"https", "g.com", none, "/s", [("q", "1")], none⟩ := by rfl

example :
    cleanStr ⟨[("g.com", ⟨some (containsSub · "g.com"), some (fun k => k == "gclid"), none, some (fun k => k == "url"), none⟩)]⟩
      "https://g.com/url?url=https%3A%2F%2Fe.org%2Ft&gclid=2" =
      .ok ⟨"https", "e.org", none, "/t", [], none⟩ := by rfl

end ExamplesClean

/-! ## Basic splitting and decoding lemmas -/

theorem breakFirst_eq_none {c : Char} {l a : List Char}
    (h : breakFirst c l = (a, none)) : a = l := by
  induction l generalizing a with
  | nil => simp [breakFirst] at h; simp [h]
  | cons x xs ih =>
      by_cases hx : x = c
      · simp [breakFirst, hx] at h
      · rcases hbf : breakFirst c xs with ⟨a', o⟩
        simp only [breakFirst, if_neg hx, hbf, Prod.mk.injEq] at h
        obtain ⟨h₁, h₂⟩ := h
        subst h₂
        rw [← h₁, ih hbf]

theorem breakFirst_eq_some {c : Char} {l a b : List Char}
    (h : breakFirst c l = (a, some b)) : l = a ++ c :: b ∧ c ∉ a := by
  induction l generalizing a b with
  | nil => simp [breakFirst] at h
  | cons x xs ih =>
      by_cases hx : x = c
      · simp only [breakFirst, if_pos hx, Prod.mk.injEq] at h
        obtain ⟨h₁, h₂⟩ := h
        subst hx
        simp [← h₁, ← Option.some_inj.mp h₂]
      · rcases hbf : breakFirst c xs with ⟨a', o⟩
        simp only [breakFirst, if_neg hx, hbf, Prod.mk.injEq] at h
        obtain ⟨h₁, h₂⟩ := h
        subst h₂
        obtain ⟨ih₁, ih₂⟩ := ih hbf
        constructor
        · rw [← h₁, ih₁]; rfl
        · rw [← h₁]
          simp only [List.mem_cons]
          push_neg
          exact ⟨fun hc => hx hc.symm, ih₂⟩

theorem breakFirst_fst_length (c : Char) (l : List Char) :
    (breakFirst c l).1.length ≤ l.length := by
  induction l with
  | nil => simp [breakFirst]
  | cons x xs ih =>
      by_cases hx : x = c
      · simp [breakFirst, hx]
      · simp only [breakFirst, if_neg hx, List.length_cons]
        omega

def sumLens (ps : List (List Char)) : Nat :=
  ps.foldr (fun p acc => p.length + acc) 0

theorem splitAll_sumLens (c : Char) (l : List Char) :
    sumLens (splitAll c l) ≤ l.length := by
  induction l with
  | nil => simp [splitAll, sumLens]
  | cons x xs ih =>
      by_cases hx : x = c
      · simp only [splitAll, if_pos hx, sumLens, List.foldr_cons, List.length_cons, List.length_nil]
        simp only [sumLens] at ih
        omega
      · simp only [splitAll, if_neg hx]
        cases hs : splitAll c xs with
        | nil => simp [sumLens]
        | cons p ps =>
            rw [hs] at ih
            simp only [sumLens, List.foldr_cons, List.length_cons] at *
            omega

theorem decodeLenientChars_length_le (l : List Char) :
    (decodeLenientChars l).length ≤ l.length := by
  induction l using decodeLenientChars.induct with
  | case1 => simp [decodeLenientChars]
  | case2 c₁ c₂ cs h lo h2 h1 ih =>
      simp only [decodeLenientChars, h1, h2, List.length_cons]
      omega
  | case3 c₁ c₂ cs hno ih =>
      have hstep : decodeLenientChars ('%' :: c₁ :: c₂ :: cs) =
          '%' :: decodeLenientChars (c₁ :: c₂ :: cs) := by
        cases hv1 : hexVal c₁ with
        | none => simp [decodeLenientChars, hv1]
        | some h =>
            cases hv2 : hexVal c₂ with
            | none => simp [decodeLenientChars, hv1, hv2]
            | some lo => exact absurd (hno h lo hv1 hv2) (fun f => f)
      rw [hstep]
      simp only [List.length_cons] at ih ⊢
      omega
  | case4 cs ih =>
      simp only [decodeLenientChars, List.length_cons]
      omega
  | case5 c cs h1 h2 ih =>
      have hstep : decodeLenientChars (c :: cs) = c :: decodeLenientChars cs := by
        by_cases hc : c = '%'
        · subst hc
          match cs with
          | [] => simp [decodeLenientChars]
          | [x] => simp [decodeLenientChars]
          | x :: y :: zs => exact absurd (h1 x y zs rfl rfl) (fun f => f)
        · by_cases hp : c = '+'
          · exact absurd (h2 hp) (fun f => f)
          · simp [decodeLenientChars, hc, hp]
      rw [hstep]
      simp only [List.length_cons]
      omega

theorem decodeStrictChars_length_le {l d : List Char}
    (h : decodeStrictChars l = some d) : d.length ≤ l.length := by
  induction l using decodeStrictChars.induct generalizing d with
  | case1 => simp only [decodeStrictChars, Option.some_inj] at h; simp [← h]
  | case2 c₁ c₂ cs hh ll h2 h1 ih =>
      simp only [decodeStrictChars, h1, h2, Option.map_eq_some'] at h
      obtain ⟨d', hd', rfl⟩ := h
      simp only [List.length_cons]
      have := ih hd'
      omega
  | case3 c₁ c₂ cs hno =>
      exfalso
      cases hv1 : hexVal c₁ with
      | none => simp [decodeStrictChars, hv1] at h
      | some hx =>
          cases hv2 : hexVal c₂ with
          | none => simp [decodeStrictChars, hv1, hv2] at h
          | some lx => exact hno hx lx hv1 hv2
  | case4 x => simp [decodeStrictChars] at h
  | case5 => simp [decodeStrictChars] at h
  | case6 c cs h1 h2 h3 ih =>
      have hstep : decodeStrictChars (c :: cs) = (decodeStrictChars cs).map (c :: ·) := by
        by_cases hc : c = '%'
        · subst hc
          match cs with
          | [] => exact absurd (h3 rfl rfl) (fun f => f)
          | [x] => exact absurd (h2 x rfl rfl) (fun f => f)
          | x :: y :: zs => exact absurd (h1 x y zs rfl rfl) (fun f => f)
        · simp [decodeStrictChars, hc]
      rw [hstep] at h
      obtain ⟨d', hd', rfl⟩ := Option.map_eq_some'.mp h
      simp only [List.length_cons]
      have := ih hd'
      omega

theorem decodeStrict_length_le {v d : String} (h : decodeStrict v = some d) :
    d.length ≤ v.length := by
  simp only [decodeStrict, Option.map_eq_some'] at h
  obtain ⟨l, hl, rfl⟩ := h
  exact decodeStrictChars_length_le hl

/-! ## Parser bounds: query values are strictly shorter than the input -/

theorem parseQueryPiece_value_length {p : List Char} {k v : String}
    (h : parseQueryPiece p = some (k, v)) : v.length ≤ p.length := by
  by_cases hp : p.isEmpty
  · simp [parseQueryPiece, hp] at h
  · rcases hb : breakFirst '=' p with ⟨kc, vo⟩
    cases vo with
    | none =>
        simp only [parseQueryPiece, hp, if_neg, Bool.false_eq_true, not_false_iff, hb,
          Option.some_inj, Prod.mk.injEq] at h
        simp [← h.2]
    | some vc =>
        simp only [parseQueryPiece, hp, if_neg, Bool.false_eq_true, not_false_iff, hb,
          Option.some_inj, Prod.mk.injEq] at h
        obtain ⟨hls, hcm⟩ := breakFirst_eq_some hb
        have hv : v.length ≤ vc.length := by
          rw [← h.2]
          exact decodeLenientChars_length_le vc
        have : vc.length ≤ p.length := by
          rw [hls]
          simp only [List.length_append, List.length_cons]
          omega
        omega

theorem valuesSumList_filterMap (ps : List (List Char)) :
    valuesSumList (ps.filterMap parseQueryPiece) ≤ sumLens ps := by
  induction ps with
  | nil => simp [valuesSumList, sumLens]
  | cons p rest ih =>
      rw [List.filterMap_cons]
      cases hp : parseQueryPiece p with
      | none =>
          simp only [sumLens, List.foldr_cons]
          simp only [sumLens] at ih
          omega
      | some kv =>
          rcases kv with ⟨k, v⟩
          have := parseQueryPiece_value_length hp
          simp only [valuesSumList, sumLens, List.foldr_cons] at ih ⊢
          omega

theorem parseQuery_valuesSum (q : List Char) :
    valuesSumList (parseQuery q) ≤ q.length := by
  calc valuesSumList (parseQuery q) ≤ sumLens (splitAll '&' q) :=
        valuesSumList_filterMap _
    _ ≤ q.length := splitAll_sumLens '&' q

theorem parse_valuesSum {s : String} {u : Url} (h : parseURL s = some u) :
    valuesSum u = 0 ∨ valuesSum u + 6 ≤ s.length := by
  rcases h1 : breakFirst '#' s.data with ⟨bh, fr⟩
  rcases h2 : breakFirst '?' bh with ⟨bq, qo⟩
  rcases h3 : breakFirst ':' bq with ⟨sch, ro⟩
  simp only [parseURL, h1, h2, h3] at h
  cases ro with
  | none => simp at h
  | some rest =>
      by_cases hsch : sch.isEmpty
      · simp [hsch] at h
      · simp only [hsch, Bool.false_eq_true, if_false] at h
        split at h
        next rest2 =>
          rcases h4 : breakFirst '/' rest2 with ⟨auth, po⟩
          simp only [h4] at h
          by_cases hauth : auth.isEmpty
          · simp [hauth] at h
          · simp only [hauth, Bool.false_eq_true, if_false, Option.some_inj] at h
            cases qo with
            | none =>
                left
                rw [← h]
                simp [valuesSum, valuesSumList]
            | some qcs =>
                right
                have hq : u.query = parseQuery qcs := by rw [← h]
                have hvq : valuesSum u ≤ qcs.length := by
                  rw [valuesSum, hq]
                  exact parseQuery_valuesSum qcs
                have hbh : bh.length ≤ s.data.length := by
                  cases fr with
                  | none => rw [breakFirst_eq_none h1]
                  | some f =>
                      obtain ⟨he, _⟩ := breakFirst_eq_some h1
                      rw [he]
                      simp
                obtain ⟨hbq, _⟩ := breakFirst_eq_some h2
                obtain ⟨hsr, _⟩ := breakFirst_eq_some h3
                have hrest2 : 1 ≤ rest2.length := by
                  cases po with
                  | none =>
                      have := breakFirst_eq_none h4
                      rw [← this]
                      cases auth with
                      | nil => simp at hauth
                      | cons a as => simp
                  | some pa =>
                      obtain ⟨he, _⟩ := breakFirst_eq_some h4
                      rw [he]
                      cases auth with
                      | nil => simp at hauth
                      | cons a as => simp
                have hsch1 : 1 ≤ sch.length := by
                  cases sch with
                  | nil => simp at hsch
                  | cons a as => simp
                have hbql : bq.length = sch.length + 3 + rest2.length := by
                  rw [hsr]
                  simp only [List.length_append, List.length_cons]
                  omega
                have hbhl : bh.length = bq.length + 1 + qcs.length := by
                  rw [hbq]
                  simp only [List.length_append, List.length_cons]
                  omega
                have hs : s.length = s.data.length := rfl
                omega
        next => exact absurd h (by simp)

/-! ## Structural lemmas about the cleaning steps -/

theorem mem_valuesSumList {q : List (String × String)} {k v : String}
    (h : (k, v) ∈ q) : v.length ≤ valuesSumList q := by
  induction q with
  | nil => simp at h
  | cons kv rest ih =>
      simp only [valuesSumList, List.foldr_cons]
      rcases List.mem_cons.mp h with h₀ | h₀
      · rw [← h₀]
        simp only [valuesSumList] at *
        omega
      · have := ih h₀
        simp only [valuesSumList] at this
        omega

theorem searchGet_mem {q : List (String × String)} {k v : String}
    (h : searchGet q k = some v) : (k, v) ∈ q := by
  simp only [searchGet, Option.map_eq_some'] at h
  obtain ⟨kv, hf, hv⟩ := h
  have hmem := List.mem_of_find?_eq_some hf
  have hk : kv.1 == k := by
    have := List.find?_some hf
    exact this
  have : kv = (k, v) := by
    rcases kv with ⟨k', v'⟩
    simp only at hv hk
    rw [Prod.mk.injEq]
    exact ⟨eq_of_beq hk, hv⟩
  rwa [this] at hmem

theorem valuesSumList_filter_le (pred : String × String → Bool)
    (q : List (String × String)) :
    valuesSumList (q.filter pred) ≤ valuesSumList q := by
  induction q with
  | nil => simp [valuesSumList]
  | cons kv rest ih =>
      simp only [List.filter_cons]
      by_cases hp : pred kv
      · simp only [hp, if_true, valuesSumList, List.foldr_cons]
        simp only [valuesSumList] at ih
        omega
      · simp only [hp, Bool.false_eq_true, if_false]
        simp only [valuesSumList, List.foldr_cons] at ih ⊢
        omega

theorem cleanParams_eq (u : Url) (p : CachedProviderRule) :
    cleanParams u p =
      { u with
        query := u.query.filter fun kv =>
          !(matchesPattern kv.1 p.rules || matchesPattern kv.1 p.referral) } := by
  rw [cleanParams]
  split
  · next hn =>
      obtain ⟨h₁, h₂⟩ := hn
      rw [Option.isNone_iff_eq_none] at h₁ h₂
      simp [h₁, h₂, matchesPattern, List.filter_true]
  · rfl

theorem cleanParams_scheme (u : Url) (p : CachedProviderRule) :
    (cleanParams u p).scheme = u.scheme := by rw [cleanParams_eq]

theorem cleanParams_host (u : Url) (p : CachedProviderRule) :
    (cleanParams u p).host = u.host := by rw [cleanParams_eq]

theorem cleanParams_port (u : Url) (p : CachedProviderRule) :
    (cleanParams u p).port = u.port := by rw [cleanParams_eq]

theorem cleanParams_path (u : Url) (p : CachedProviderRule) :
    (cleanParams u p).path = u.path := by rw [cleanParams_eq]

theorem cleanParams_fragment (u : Url) (p : CachedProviderRule) :
    (cleanParams u p).fragment = u.fragment := by rw [cleanParams_eq]

theorem cleanParams_valuesSum_le (u : Url) (p : CachedProviderRule) :
    valuesSum (cleanParams u p) ≤ valuesSum u := by
  rw [cleanParams_eq]
  exact valuesSumList_filter_le _ _

theorem cleanParams_mem {u : Url} {p : CachedProviderRule} {kv : String × String}
    (h : kv ∈ (cleanParams u p).query) : kv ∈ u.query := by
  rw [cleanParams_eq] at h
  exact List.mem_of_mem_filter h

theorem applyGlobal_valuesSum_le (R : LinkCleaner) (u : Url) :
    valuesSum (applyGlobal R u) ≤ valuesSum u := by
  rw [applyGlobal]
  cases globalProvider R with
  | none => exact le_refl _
  | some g => exact cleanParams_valuesSum_le u g

theorem applyGlobal_mem {R : LinkCleaner} {u : Url} {kv : String × String}
    (h : kv ∈ (applyGlobal R u).query) : kv ∈ u.query := by
  rw [applyGlobal] at h
  cases hg : globalProvider R with
  | none => rwa [hg] at h
  | some g => rw [hg] at h; exact cleanParams_mem h

theorem redirectScan_congr {rc₁ rc₂ : String → Option Url} {red : Option Matcher}
    {q : List (String × String)}
    (h : ∀ k v d, (k, v) ∈ q → v ≠ "" → decodeStrict v = some d → rc₁ d = rc₂ d) :
    ∀ ks, redirectScan rc₁ red q ks = redirectScan rc₂ red q ks := by
  intro ks
  induction ks with
  | nil => simp [redirectScan]
  | cons k rest ih =>
      simp only [redirectScan]
      by_cases hm : matchesPattern k red
      · simp only [hm, if_true]
        cases hg : searchGet q k with
        | none => exact ih
        | some v =>
            by_cases hv : v = ""
            · simp [hv, ih]
            · simp only [hv, if_false]
              cases hd : decodeStrict v with
              | none => exact ih
              | some d =>
                  have hrr := h k v d (searchGet_mem hg) hv hd
                  simp only [hrr]
                  cases rc₂ d with
                  | none => exact ih
                  | some r => rfl
      · simp only [hm, Bool.false_eq_true, if_false]
        exact ih

/-- Fuel sufficiency: any fuel at least `urlFuel u` computes the same result,
so `cleanUrl` is the unique fixed semantics of the unbounded recursion in
`LinkCleaner.clean`. -/
theorem cleanObjF_fuel_eq (R : LinkCleaner) :
    ∀ f u, urlFuel u ≤ f → cleanObjF R f u = cleanObjF R (urlFuel u) u := by
  intro f
  induction f using Nat.strong_induction_on with
  | _ f ih =>
      intro u hf
      cases f with
      | zero => rw [urlFuel] at hf; omega
      | succ f' =>
          rw [urlFuel] at hf ⊢
          simp only [cleanObjF]
          by_cases hq : u.query.isEmpty
          · simp [hq]
          · simp only [hq, Bool.false_eq_true, if_false]
            cases hp : findProvider R (applyGlobal R u) with
            | none => rfl
            | some p =>
                have hcong :
                    redirectScan (fun s => (parseURL s).map (cleanObjF R f'))
                        p.redirections (applyGlobal R u).query
                        ((applyGlobal R u).query.map (·.1)) =
                      redirectScan (fun s => (parseURL s).map (cleanObjF R (valuesSum u)))
                        p.redirections (applyGlobal R u).query
                        ((applyGlobal R u).query.map (·.1)) := by
                  apply redirectScan_congr
                  intro k v d hmem hv hd
                  cases hpd : parseURL d with
                  | none => simp [hpd]
                  | some u' =>
                      simp only [hpd, Option.map_some']
                      have h1 : v.length ≤ valuesSum (applyGlobal R u) :=
                        mem_valuesSumList hmem
                      have h2 : valuesSum (applyGlobal R u) ≤ valuesSum u :=
                        applyGlobal_valuesSum_le R u
                      have h3 : d.length ≤ v.length := decodeStrict_length_le hd
                      have h4 : 1 ≤ v.length := by
                        rcases v with ⟨vd⟩
                        cases vd with
                        | nil => exact absurd rfl hv
                        | cons a as => simp [String.length]
                      have h5 := parse_valuesSum hpd
                      have h6 : urlFuel u' ≤ valuesSum u := by
                        rw [urlFuel]
                        rcases h5 with h5 | h5 <;> omega
                      have h7 : urlFuel u' ≤ f' := by omega
                      rw [ih f' (by omega) u' h7, ih (valuesSum u) (by omega) u' h6]
                dsimp only
                rw [hcong]

/-- One-step unfolding of `cleanUrl` in terms of the named pipeline stages. -/
theorem cleanUrl_eq (R : LinkCleaner) (u : Url) :
    cleanUrl R u =
      if u.query.isEmpty then u
      else
        match findProvider R (applyGlobal R u) with
        | none => applyGlobal R u
        | some p =>
            match redirectResolve R (urlFuel u) (applyGlobal R u) p with
            | some r => r
            | none => cleanParams (applyGlobal R u) p := by
  rw [cleanUrl, urlFuel]
  rfl

/-- Inside a successful redirection, the recursive call (at the caller's
fuel) computes exactly `cleanUrl` of the inner URL. -/
theorem cleanObjF_inner_eq (R : LinkCleaner) {u : Url} {k v d : String} {u' : Url}
    (hmem : (k, v) ∈ (applyGlobal R u).query) (hv : v ≠ "")
    (hd : decodeStrict v = some d) (hpd : parseURL d = some u') :
    cleanObjF R (valuesSum u) u' = cleanUrl R u' := by
  have h1 : v.length ≤ valuesSum (applyGlobal R u) := mem_valuesSumList hmem
  have h2 : valuesSum (applyGlobal R u) ≤ valuesSum u := applyGlobal_valuesSum_le R u
  have h3 : d.length ≤ v.length := decodeStrict_length_le hd
  have h4 : 1 ≤ v.length := by
    rcases v with ⟨vd⟩
    cases vd with
    | nil => exact absurd rfl hv
    | cons a as => simp [String.length]
  have h5 := parse_valuesSum hpd
  have h6 : urlFuel u' ≤ valuesSum u := by
    rw [urlFuel]
    rcases h5 with h5 | h5 <;> omega
  exact cleanObjF_fuel_eq R (valuesSum u) u' h6

/-- A provider returned by `findProvider` matched the `href` through its
`urlPattern` and was not vetoed: its `exceptions` do not match the `href`. -/
theorem findProviderAux_spec {href : String} :
    ∀ ps p, findProviderAux href ps = some p →
      matchesPattern href p.urlPattern = true ∧ matchesPattern href p.exceptions = false := by
  intro ps
  induction ps with
  | nil => intro p h; simp [findProviderAux] at h
  | cons np rest ih =>
      intro p h
      rcases np with ⟨name, q⟩
      by_cases hn : name == "globalRules"
      · rw [findProviderAux, if_pos hn] at h
        exact ih p h
      · rw [findProviderAux, if_neg hn] at h
        by_cases hu : matchesPattern href q.urlPattern
        · rw [if_pos hu] at h
          by_cases he : matchesPattern href q.exceptions
          · rw [if_pos he] at h
            exact ih p h
          · rw [if_neg he] at h
            cases h
            exact ⟨hu, by simpa using he⟩
        · rw [if_neg hu] at h
          exact ih p h

theorem findProvider_spec {R : LinkCleaner} {u : Url} {p : CachedProviderRule}
    (h : findProvider R u = some p) :
    matchesPattern (serializeUrl u) p.urlPattern = true ∧
      matchesPattern (serializeUrl u) p.exceptions = false :=
  findProviderAux_spec R.providers p h

/-- `some r` exactly when the code's redirection phase fires and returns `r`
at the top of a `clean` call on `u`. -/
def redirected (R : LinkCleaner) (u : Url) : Option Url :=
  match findProvider R (applyGlobal R u) with
  | none => none
  | some p => redirectResolve R (urlFuel u) (applyGlobal R u) p

theorem cleanParams_query (u : Url) (p : CachedProviderRule) :
    (cleanParams u p).query =
      u.query.filter fun kv =>
        !(matchesPattern kv.1 p.rules || matchesPattern kv.1 p.referral) := by
  rw [cleanParams_eq]

/-- The parameter-stripping step is idempotent. -/
theorem cleanParams_idem (u : Url) (p : CachedProviderRule) :
    cleanParams (cleanParams u p) p = cleanParams u p := by
  simp only [cleanParams_eq, List.filter_filter]
  congr 1
  apply List.filter_congr
  intro kv _
  exact Bool.and_self _

/-- When no redirection fires, `clean` is a pure name-based query filter:
every non-query component is untouched and the query is filtered by a
predicate on parameter names only. -/
theorem cleanUrl_noRedirect_shape (R : LinkCleaner) (u : Url)
    (h : redirected R u = none) :
    ∃ P : String → Bool,
      cleanUrl R u = { u with query := u.query.filter fun kv => !(P kv.1) } := by
  rw [cleanUrl_eq]
  by_cases hq : u.query.isEmpty
  · refine ⟨fun _ => false, ?_⟩
    rw [if_pos hq]
    simp
  · rw [if_neg hq]
    rw [redirected] at h
    cases hp : findProvider R (applyGlobal R u) with
    | none =>
        dsimp only
        cases hg : globalProvider R with
        | none => exact ⟨fun _ => false, by rw [applyGlobal, hg]; simp⟩
        | some g =>
            refine ⟨fun k => matchesPattern k g.rules || matchesPattern k g.referral, ?_⟩
            rw [applyGlobal, hg]
            dsimp only
            rw [cleanParams_eq]
    | some p =>
        rw [hp] at h
        dsimp only at h
        dsimp only
        rw [h]
        cases hg : globalProvider R with
        | none =>
            refine ⟨fun k => matchesPattern k p.rules || matchesPattern k p.referral, ?_⟩
            rw [applyGlobal, hg]
            dsimp only
            rw [cleanParams_eq]
        | some g =>
            refine ⟨fun k =>
              (matchesPattern k g.rules || matchesPattern k g.referral) ||
                (matchesPattern k p.rules || matchesPattern k p.referral), ?_⟩
            rw [applyGlobal, hg]
            dsimp only
            rw [cleanParams_eq, cleanParams_eq]
            simp only [List.filter_filter]
            congr 1
            apply List.filter_congr
            intro kv _
            cases matchesPattern kv.1 g.rules <;> cases matchesPattern kv.1 g.referral <;>
              cases matchesPattern kv.1 p.rules <;> cases matchesPattern kv.1 p.referral <;> rfl

/-! ## C1 -/

/-- Modelled from the spec: the parameter-level exception semantics §3/§8
prescribe — the output parameter list is the input minus every parameter
matching a removal pattern (`rules` or `referral`) that matches no
exception pattern, exceptions being tested against the parameter name. -/
def specParamLevelQuery (p : CachedProviderRule) (q : List (String × String)) :
    List (String × String) :=
  q.filter fun kv =>
    !((matchesPattern kv.1 p.rules || matchesPattern kv.1 p.referral) &&
      !matchesPattern kv.1 p.exceptions)

/-- C1 (amended): exceptions act at the whole-URL level, not the parameter
level: a selected provider's exceptions never matched the URL's href (they
veto the provider as a whole in `findProvider`), and when no redirection
fires the output query is the input minus every parameter matching `rules`
or `referral` — the exception patterns are not consulted per parameter. -/
theorem c1_amended_url_level_exceptions (R : LinkCleaner) (u : Url)
    (p : CachedProviderRule)
    (hg : globalProvider R = none)
    (hf : findProvider R u = some p)
    (hr : redirectResolve R (urlFuel u) u p = none) :
    (cleanUrl R u).query =
      u.query.filter (fun kv =>
        !(matchesPattern kv.1 p.rules || matchesPattern kv.1 p.referral)) ∧
    matchesPattern (serializeUrl u) p.exceptions = false := by
  have hga : applyGlobal R u = u := by rw [applyGlobal, hg]
  refine ⟨?_, (findProvider_spec hf).2⟩
  rw [cleanUrl_eq]
  by_cases hq : u.query.isEmpty
  · rw [if_pos hq]
    have : u.query = [] := by
      cases hqq : u.query with
      | nil => rfl
      | cons a as => rw [hqq] at hq; simp at hq
    rw [this]
    simp
  · rw [if_neg hq, hga, hf]
    dsimp only
    rw [hr]
    dsimp only
    rw [cleanParams_query]

def c1Prov : CachedProviderRule :=
  ⟨some (containsSub · "x.com"), some (fun k => k == "a"),
    some (containsSub · "zzz"), none, none⟩

def c1Rules : LinkCleaner := ⟨[("x.com", c1Prov)]⟩

def c1Url : Url := ⟨"https", "x.com", none, "/", [("a", "1"), ("c", "2")], none⟩

/-- C1 witness: a provider with rule `a` and a non-matching exception set,
on `https://x.com/?a=1&c=2`: `a` is stripped, `c` kept, and the exception
pattern did not match the href. -/
theorem c1_witness :
    (cleanUrl c1Rules c1Url).query = [("c", "2")] ∧
    matchesPattern (serializeUrl c1Url) c1Prov.exceptions = false := by
  have h := c1_amended_url_level_exceptions c1Rules c1Url c1Prov rfl rfl rfl
  exact ⟨h.1.trans (by rfl), h.2⟩

def c1CexProv : CachedProviderRule :=
  ⟨some (containsSub · "x.com"), some (fun k => k == "a" || k == "b"),
    some (containsSub · "b"), none, none⟩

def c1CexRules : LinkCleaner := ⟨[("x.com", c1CexProv)]⟩

def c1CexUrl : Url := ⟨"https", "x.com", none, "/", [("a", "1"), ("b", "2")], none⟩

/-- C1 counterexample: rules `{a, b}`, exceptions `{b}`, input
`https://x.com/?a=1&b=2`, no redirection.  The spec's parameter-level
semantics demand output `{b}` (`a` removed, `b` retained by its exception);
the code tests the exception against the href, which contains `b`, so the
provider is skipped and the output keeps both parameters. -/
theorem c1_counterexample :
    redirected c1CexRules c1CexUrl = none ∧
    (cleanUrl c1CexRules c1CexUrl).query = [("a", "1"), ("b", "2")] ∧
    specParamLevelQuery c1CexProv c1CexUrl.query = [("b", "2")] ∧
    (cleanUrl c1CexRules c1CexUrl).query ≠ specParamLevelQuery c1CexProv c1CexUrl.query := by
  refine ⟨rfl, rfl, rfl, ?_⟩
  decide

/-! ## C10 -/

/-- C10: when no redirection fires, `clean` preserves scheme, host, port,
path and fragment, and its only effect on the query is deleting parameters
by name: the output query is the input filtered by a predicate on the
parameter name alone (so nothing is added, renamed, or has its value
changed, and a deleted name loses every one of its occurrences). -/
theorem c10_frame_only_deletes_params (R : LinkCleaner) (u : Url)
    (h : redirected R u = none) :
    (cleanUrl R u).scheme = u.scheme ∧ (cleanUrl R u).host = u.host ∧
    (cleanUrl R u).port = u.port ∧ (cleanUrl R u).path = u.path ∧
    (cleanUrl R u).fragment = u.fragment ∧
    ∃ P : String → Bool, (cleanUrl R u).query = u.query.filter fun kv => !(P kv.1) := by
  obtain ⟨P, hP⟩ := cleanUrl_noRedirect_shape R u h
  rw [hP]
  exact ⟨rfl, rfl, rfl, rfl, rfl, ⟨P, rfl⟩⟩

def c10Global : CachedProviderRule := ⟨none, some (fun k => k == "utm"), none, none, none⟩

def c10Prov : CachedProviderRule :=
  ⟨some (containsSub · "x.com"), some (fun k => k == "id"), none, none, none⟩

def c10Rules : LinkCleaner := ⟨[("globalRules", c10Global), ("x.com", c10Prov)]⟩

def c10Url : Url :=
  ⟨"https", "x.com", none, "/p", [("utm", "1"), ("id", "2"), ("utm", "3"), ("q", "k")], none⟩

/-- C10 witness: a global `utm` rule plus a provider `id` rule on
`https://x.com/p?utm=1&id=2&utm=3&q=k`: the frame is preserved, both `utm`
occurrences and `id` are deleted, `q` survives with its value. -/
theorem c10_witness :
    ((cleanUrl c10Rules c10Url).scheme = c10Url.scheme ∧
      (cleanUrl c10Rules c10Url).host = c10Url.host ∧
      (cleanUrl c10Rules c10Url).port = c10Url.port ∧
      (cleanUrl c10Rules c10Url).path = c10Url.path ∧
      (cleanUrl c10Rules c10Url).fragment = c10Url.fragment ∧
      ∃ P : String → Bool,
        (cleanUrl c10Rules c10Url).query = c10Url.query.filter fun kv => !(P kv.1)) ∧
    (cleanUrl c10Rules c10Url).query = [("q", "k")] := by
  exact ⟨c10_frame_only_deletes_params c10Rules c10Url rfl, rfl⟩

/-! ## C5 -/

/-- C5: a syntactically invalid URL string makes `clean` fail with the
`InvalidUrl` error, surfaced to the caller; a structured URL value never
makes `clean` fail (a URL object is well-formed by construction — the
defensive catch that would return it unchanged is unreachable — and the
call always returns a cleaned URL). -/
theorem c5_invalid_url_handling (R : LinkCleaner) :
    (∀ s : String, parseURL s = none → cleanInput R (.inl s) = .error .invalidUrl) ∧
    (∀ u : Url, cleanInput R (.inr u) = .ok (cleanUrl R u)) := by
  constructor
  · intro s hs
    simp [cleanInput, cleanStr, hs]
  · intro u
    rfl

def c5Rules : LinkCleaner := ⟨[]⟩

def c5Url : Url := ⟨"https", "e.org", none, "/", [], none⟩

/-- C5 witness: `"invalid-url"` (no scheme) errors with `InvalidUrl`; a URL
value input yields `.ok`. -/
theorem c5_witness :
    cleanInput c5Rules (.inl "invalid-url") = .error .invalidUrl ∧
    cleanInput c5Rules (.inr c5Url) = .ok (cleanUrl c5Rules c5Url) :=
  ⟨(c5_invalid_url_handling c5Rules).1 "invalid-url" (by rfl),
    (c5_invalid_url_handling c5Rules).2 c5Url⟩

/-! ## C6 -/

def c6ProvA : CachedProviderRule :=
  ⟨some (fun s => s == "https://x.com/?b=2"), some (fun k => k == "b"), none, none, none⟩

def c6ProvB : CachedProviderRule :=
  ⟨some (containsSub · "x.com"), some (fun k => k == "a"), none, none, none⟩

def c6Rules : LinkCleaner := ⟨[("a.example", c6ProvA), ("b.example", c6ProvB)]⟩

def c6Url : Url := ⟨"https", "x.com", none, "/", [("a", "1"), ("b", "2")], none⟩

/-- C6 counterexample: provider A matches exactly `https://x.com/?b=2` and
strips `b`; provider B matches any `x.com` URL and strips `a`.  Cleaning
`https://x.com/?a=1&b=2` selects B (A does not match yet) and yields
`https://x.com/?b=2`; cleaning again now selects A and yields
`https://x.com/` — `clean (clean u) ≠ clean u`. -/
theorem c6_counterexample :
    cleanUrl c6Rules c6Url = ⟨"https", "x.com", none, "/", [("b", "2")], none⟩ ∧
    cleanUrl c6Rules (cleanUrl c6Rules c6Url) = ⟨"https", "x.com", none, "/", [], none⟩ ∧
    cleanUrl c6Rules (cleanUrl c6Rules c6Url) ≠ cleanUrl c6Rules c6Url := by
  refine ⟨rfl, rfl, ?_⟩
  decide

/-- C6 (amended): full `clean` is not idempotent — deleting parameters can
change which provider `findProvider` selects on a second pass (see the
counterexample) — but the per-provider parameter-stripping step is:
`cleanParams` applied twice with the same provider equals one application. -/
theorem c6_amended_cleanParams_idempotent (u : Url) (p : CachedProviderRule) :
    cleanParams (cleanParams u p) p = cleanParams u p :=
  cleanParams_idem u p

/-! ## C2 and C4: the redirection phase -/

theorem applyGlobal_query_nil {R : LinkCleaner} {u : Url} (h : u.query = []) :
    (applyGlobal R u).query = [] := by
  rw [applyGlobal]
  cases globalProvider R with
  | none => exact h
  | some g => rw [cleanParams_query, h]; rfl

theorem query_isEmpty_false_of_applyGlobal {R : LinkCleaner} {u : Url}
    (h : (applyGlobal R u).query ≠ []) : u.query.isEmpty = false := by
  cases hq : u.query with
  | nil => exact absurd (applyGlobal_query_nil hq) h
  | cons a l => rfl

theorem redirections_isSome_of_matches {k : String} {p : CachedProviderRule}
    (h : matchesPattern k p.redirections = true) : p.redirections.isSome = true := by
  cases hr : p.redirections with
  | none => rw [hr] at h; simp [matchesPattern] at h
  | some m => rfl

/-- C2 (amended): redirection resolution scans the (post-global-pass) query
keys in encounter order and uses `searchParams.get`, i.e. the first value
bound to the key's name.  When the first key's name matches a redirection
pattern and its first bound value is non-empty, decodes successfully, and
parses as a URL, `clean` returns the recursive clean of that inner URL,
skipping the outer URL's own parameter stripping. -/
theorem c2_amended_redirect_first_key (R : LinkCleaner) (u : Url)
    (p : CachedProviderRule) (k v d : String) (u' : Url)
    (hf : findProvider R (applyGlobal R u) = some p)
    (hhead : (applyGlobal R u).query.head? = some (k, v))
    (hk : matchesPattern k p.redirections = true)
    (hv : v ≠ "")
    (hd : decodeStrict v = some d)
    (hpd : parseURL d = some u') :
    cleanUrl R u = cleanUrl R u' := by
  obtain ⟨rest, hq1⟩ : ∃ rest, (applyGlobal R u).query = (k, v) :: rest := by
    cases hc : (applyGlobal R u).query with
    | nil => rw [hc] at hhead; simp at hhead
    | cons kv rest =>
        rw [hc] at hhead
        simp only [List.head?_cons, Option.some_inj] at hhead
        exact ⟨rest, by rw [hhead]⟩
  have hne : u.query.isEmpty = false :=
    query_isEmpty_false_of_applyGlobal (by rw [hq1]; simp)
  have hmem : (k, v) ∈ (applyGlobal R u).query := by rw [hq1]; exact List.mem_cons_self _ _
  rw [cleanUrl_eq, hne]
  simp only [Bool.false_eq_true, if_false]
  rw [hf]
  dsimp only
  rw [redirectResolve.eq_def, if_pos (redirections_isSome_of_matches hk), urlFuel]
  rw [hq1]
  simp only [List.map_cons, redirectScan, hk, if_true]
  have hget : searchGet ((k, v) :: rest) k = some v := by
    simp [searchGet, List.find?_cons_of_pos]
  rw [hget]
  simp only [hv, if_false, hd]
  rw [hpd]
  simp only [Option.map_some']
  exact cleanObjF_inner_eq R hmem hv hd hpd

def c2Global : CachedProviderRule := ⟨none, some (fun k => k == "gclid"), none, none, none⟩

def c2Prov : CachedProviderRule :=
  ⟨some (containsSub · "p.com"), none, none, some (fun k => k == "url"), none⟩

def c2Rules : LinkCleaner := ⟨[("globalRules", c2Global), ("p.com", c2Prov)]⟩

def c2Outer : Url :=
  ⟨"https", "p.com", none, "/url",
    [("url", "https://q.com/target?gclid=1"), ("gclid", "2")], none⟩

def c2Inner : Url := ⟨"https", "q.com", none, "/target", [("gclid", "1")], none⟩

def c2Target : Url := ⟨"https", "q.com", none, "/target", [], none⟩

/-- C2 witness: the spec's example.  Under a `p.com` provider with
`redirections = [url]` (and a global `gclid` rule so the inner URL is
cleaned), `https://p.com/url?url=encode(https://q.com/target?gclid=1)&gclid=2`
cleans to `https://q.com/target`: the inner URL is cleaned recursively and
the outer parameters are discarded entirely. -/
theorem c2_witness :
    cleanUrl c2Rules c2Outer = c2Target ∧
    serializeUrl c2Target = "https://q.com/target" := by
  have h := c2_amended_redirect_first_key c2Rules c2Outer c2Prov
    "url" "https://q.com/target?gclid=1" "https://q.com/target?gclid=1" c2Inner
    rfl rfl rfl (by decide) rfl rfl
  exact ⟨h.trans (by rfl), rfl⟩

def c2DupUrl : Url :=
  ⟨"https", "p.com", none, "/", [("url", ""), ("url", "https://q.com/ok")], none⟩

def c2QOk : Url := ⟨"https", "q.com", none, "/ok", [], none⟩

/-- C2 counterexample: on `https://p.com/?url=&url=https%3A%2F%2Fq.com%2Fok`
the first query pair whose name matches `url` and whose own value is present
and non-empty is the second pair, so the claim requires redirecting to the
cleaned `https://q.com/ok`.  The code reads values with
`searchParams.get`, which always returns the first value bound to the name
(the empty one), so no redirection fires and the URL is returned with both
parameters intact. -/
theorem c2_counterexample :
    cleanUrl c2Rules c2DupUrl = c2DupUrl ∧
    c2DupUrl.query[1]? = some ("url", "https://q.com/ok") ∧
    matchesPattern "url" c2Prov.redirections = true ∧
    ("https://q.com/ok" : String) ≠ "" ∧
    cleanStr c2Rules "https://q.com/ok" = .ok c2QOk ∧
    cleanUrl c2Rules c2DupUrl ≠ c2QOk := by
  refine ⟨rfl, rfl, rfl, by decide, rfl, by decide⟩

/-- A successful redirection scan always comes from some key in the scanned
list whose first bound value is non-empty, decodes, and recursively cleans
to the returned result. -/
theorem redirectScan_some {rc : String → Option Url} {red : Option Matcher}
    {q : List (String × String)} :
    ∀ ks r, redirectScan rc red q ks = some r →
      ∃ k v d, k ∈ ks ∧ matchesPattern k red = true ∧ searchGet q k = some v ∧
        v ≠ "" ∧ decodeStrict v = some d ∧ rc d = some r := by
  intro ks
  induction ks with
  | nil => intro r h; simp [redirectScan] at h
  | cons k rest ih =>
      intro r h
      rw [redirectScan] at h
      by_cases hm : matchesPattern k red
      · rw [if_pos hm] at h
        cases hg : searchGet q k with
        | none =>
            rw [hg] at h
            obtain ⟨k', v', d', hmm, h₂, h₃, h₄, h₅, h₆⟩ := ih r h
            exact ⟨k', v', d', List.mem_cons_of_mem _ hmm, h₂, h₃, h₄, h₅, h₆⟩
        | some v =>
            rw [hg] at h
            dsimp only at h
            by_cases hv : v = ""
            · rw [if_pos hv] at h
              obtain ⟨k', v', d', hmm, h₂, h₃, h₄, h₅, h₆⟩ := ih r h
              exact ⟨k', v', d', List.mem_cons_of_mem _ hmm, h₂, h₃, h₄, h₅, h₆⟩
            · rw [if_neg hv] at h
              cases hd : decodeStrict v with
              | none =>
                  rw [hd] at h
                  dsimp only at h
                  obtain ⟨k', v', d', hmm, h₂, h₃, h₄, h₅, h₆⟩ := ih r h
                  exact ⟨k', v', d', List.mem_cons_of_mem _ hmm, h₂, h₃, h₄, h₅, h₆⟩
              | some d =>
                  rw [hd] at h
                  dsimp only at h
                  cases hr : rc d with
                  | none =>
                      rw [hr] at h
                      obtain ⟨k', v', d', hmm, h₂, h₃, h₄, h₅, h₆⟩ := ih r h
                      exact ⟨k', v', d', List.mem_cons_of_mem _ hmm, h₂, h₃, h₄, h₅, h₆⟩
                  | some r' =>
                      rw [hr] at h
                      simp only [Option.some_inj] at h
                      exact ⟨k, v, d, List.mem_cons_self _ _, hm, hg, hv, hd, h ▸ hr⟩
      · rw [if_neg hm] at h
        obtain ⟨k', v', d', hmm, h₂, h₃, h₄, h₅, h₆⟩ := ih r h
        exact ⟨k', v', d', List.mem_cons_of_mem _ hmm, h₂, h₃, h₄, h₅, h₆⟩

/-- C4 (amended): when the first query pair's name matches a redirection
pattern but its value cannot be percent-decoded, that parameter is skipped
and scanning continues with the later parameters — redirection is not
abandoned.  The failure never propagates: the result is either the
parameter-stripped outer URL (when no matching parameter succeeds) or the
recursive clean of a later successful redirection parameter. -/
theorem c4_amended_failed_redirect_skipped (R : LinkCleaner) (u : Url)
    (p : CachedProviderRule) (k₁ v₁ : String) (rest : List (String × String))
    (hf : findProvider R (applyGlobal R u) = some p)
    (hq1 : (applyGlobal R u).query = (k₁, v₁) :: rest)
    (hk1 : matchesPattern k₁ p.redirections = true)
    (hd1 : decodeStrict v₁ = none) :
    cleanUrl R u = cleanParams (applyGlobal R u) p ∨
    ∃ k v d u', (k, v) ∈ (applyGlobal R u).query ∧
      matchesPattern k p.redirections = true ∧ v ≠ "" ∧ decodeStrict v = some d ∧
      parseURL d = some u' ∧ cleanUrl R u = cleanUrl R u' := by
  have hne : u.query.isEmpty = false :=
    query_isEmpty_false_of_applyGlobal (by rw [hq1]; simp)
  rw [cleanUrl_eq, hne]
  simp only [Bool.false_eq_true, if_false]
  rw [hf]
  dsimp only
  rw [redirectResolve.eq_def, if_pos (redirections_isSome_of_matches hk1), urlFuel]
  rw [hq1]
  simp only [List.map_cons, redirectScan, hk1, if_true]
  have hget : searchGet ((k₁, v₁) :: rest) k₁ = some v₁ := by
    simp [searchGet, List.find?_cons_of_pos]
  rw [hget]
  dsimp only
  have hskip :
      (if v₁ = "" then
          redirectScan (fun s => (parseURL s).map (cleanObjF R (valuesSum u)))
            p.redirections ((k₁, v₁) :: rest) (rest.map (·.1))
        else
          match decodeStrict v₁ with
          | some dd =>
              match (parseURL dd).map (cleanObjF R (valuesSum u)) with
              | some r => some r
              | none =>
                  redirectScan (fun s => (parseURL s).map (cleanObjF R (valuesSum u)))
                    p.redirections ((k₁, v₁) :: rest) (rest.map (·.1))
          | none =>
              redirectScan (fun s => (parseURL s).map (cleanObjF R (valuesSum u)))
                p.redirections ((k₁, v₁) :: rest) (rest.map (·.1))) =
      redirectScan (fun s => (parseURL s).map (cleanObjF R (valuesSum u)))
        p.redirections ((k₁, v₁) :: rest) (rest.map (·.1)) := by
    by_cases hv : v₁ = ""
    · rw [if_pos hv]
    · rw [if_neg hv, hd1]
  rw [hskip]
  cases hscan :
      redirectScan (fun s => (parseURL s).map (cleanObjF R (valuesSum u)))
        p.redirections ((k₁, v₁) :: rest) (rest.map (·.1)) with
  | none => left; rfl
  | some r =>
      right
      obtain ⟨k, v, d, hks, hm, hg, hv, hd, hrc⟩ :=
        redirectScan_some (rest.map (·.1)) r hscan
      obtain ⟨u', hpu, hco⟩ := Option.map_eq_some'.mp hrc
      have hmem : (k, v) ∈ (applyGlobal R u).query := by
        rw [hq1]; exact searchGet_mem hg
      refine ⟨k, v, d, u', searchGet_mem hg, hm, hv, hd, hpu, ?_⟩
      dsimp only
      rw [← hco, cleanObjF_inner_eq R hmem hv hd hpu]

def c4Prov : CachedProviderRule :=
  ⟨some (containsSub · "x.com"), some (fun k => k == "z"), none,
    some (fun k => k == "r1" || k == "r2"), none⟩

def c4Rules : LinkCleaner := ⟨[("x.com", c4Prov)]⟩

def c4WitUrl : Url := ⟨"https", "x.com", none, "/", [("r1", "%"), ("z", "1")], none⟩

/-- C4 witness: `https://x.com/?r1=%&z=1`, with `r1` a redirection parameter
whose value `%` cannot be decoded and no later redirection parameter: the
scan falls through and the outer URL is parameter-stripped (`z` removed). -/
theorem c4_witness :
    (cleanUrl c4Rules c4WitUrl = cleanParams (applyGlobal c4Rules c4WitUrl) c4Prov ∨
      ∃ k v d u', (k, v) ∈ (applyGlobal c4Rules c4WitUrl).query ∧
        matchesPattern k c4Prov.redirections = true ∧ v ≠ "" ∧
        decodeStrict v = some d ∧ parseURL d = some u' ∧
        cleanUrl c4Rules c4WitUrl = cleanUrl c4Rules u') ∧
    cleanUrl c4Rules c4WitUrl = ⟨"https", "x.com", none, "/", [("r1", "%")], none⟩ := by
  refine ⟨c4_amended_failed_redirect_skipped c4Rules c4WitUrl c4Prov
    "r1" "%" [("z", "1")] rfl rfl rfl rfl, rfl⟩

def c4CexUrl : Url :=
  ⟨"https", "x.com", none, "/", [("r1", "%"), ("r2", "https://y.com/ok")], none⟩

def c4YUrl : Url := ⟨"https", "y.com", none, "/ok", [], none⟩

/-- C4 counterexample: on `https://x.com/?r1=%&r2=https%3A%2F%2Fy.com%2Fok`
the first matching redirection parameter `r1` has the undecodable value `%`.
The claim requires redirection to be abandoned with fall-through to
parameter stripping of the outer URL (which here strips nothing, leaving an
`x.com` URL); the code instead continues the scan, follows `r2`, and
returns the cleaned `https://y.com/ok`. -/
theorem c4_counterexample :
    decodeStrict "%" = none ∧
    matchesPattern "r1" c4Prov.redirections = true ∧
    cleanUrl c4Rules c4CexUrl = c4YUrl ∧
    cleanParams (applyGlobal c4Rules c4CexUrl) c4Prov = c4CexUrl ∧
    cleanUrl c4Rules c4CexUrl ≠ c4CexUrl := by
  refine ⟨rfl, rfl, rfl, rfl, by decide⟩

/-! ## C3: encoding round-trips and the nested-redirection chain -/

theorem hexVal_hexDigitChar {n : Nat} (h : n < 16) :
    hexVal (hexDigitChar n) = some n := by
  interval_cases n <;> rfl

theorem hexDigitChar_alphanum {n : Nat} (h : n < 16) :
    (hexDigitChar n).isAlphanum = true := by
  interval_cases n <;> rfl

theorem hexDigitChar_ascii {n : Nat} (h : n < 16) :
    (hexDigitChar n).toNat < 128 := by
  interval_cases n <;> decide

theorem alphanum_ascii {x : Char} (h : x.isAlphanum = true) : x.toNat < 128 := by
  rw [Char.isAlphanum, Char.isAlpha, Char.isUpper, Char.isLower, Char.isDigit] at h
  simp only [Bool.or_eq_true, Bool.and_eq_true, decide_eq_true_eq] at h
  rw [Char.toNat]
  rcases h with (⟨h₁, h₂⟩ | ⟨h₁, h₂⟩) | ⟨h₁, h₂⟩ <;>
    · have h3 : x.val.toNat ≤ ('z'.val).toNat ∨ x.val.toNat ≤ ('Z'.val).toNat ∨
          x.val.toNat ≤ ('9'.val).toNat := by
        first
          | exact Or.inl h₂
          | exact Or.inr (Or.inl h₂)
          | exact Or.inr (Or.inr h₂)
      rw [show ('z'.val).toNat = 122 from rfl, show ('Z'.val).toNat = 90 from rfl,
        show ('9'.val).toNat = 57 from rfl] at h3
      rcases h3 with h3 | h3 | h3 <;> omega

theorem encChar_class {c x : Char} (h : x ∈ encChar c) :
    x.isAlphanum = true ∨ x = '%' := by
  rw [encChar] at h
  by_cases ha : c.isAlphanum
  · rw [if_pos ha] at h
    simp only [List.mem_singleton] at h
    exact Or.inl (h ▸ ha)
  · rw [if_neg ha] at h
    simp only [List.mem_cons, List.mem_singleton, List.not_mem_nil, or_false] at h
    rcases h with h | h | h
    · exact Or.inr h
    · exact Or.inl (h ▸ hexDigitChar_alphanum (by omega))
    · exact Or.inl (h ▸ hexDigitChar_alphanum (by omega))

theorem encChars_class {l : List Char} {x : Char} (h : x ∈ encChars l) :
    x.isAlphanum = true ∨ x = '%' := by
  induction l with
  | nil => simp [encChars] at h
  | cons c cs ih =>
      rw [encChars] at h
      rcases List.mem_append.mp h with h | h
      · exact encChar_class h
      · exact ih h

theorem not_mem_encChars {l : List Char} {x : Char}
    (h1 : x.isAlphanum = false) (h2 : x ≠ '%') : x ∉ encChars l := by
  intro hm
  rcases encChars_class hm with h | h
  · rw [h1] at h; cases h
  · exact h2 h

theorem encChars_ascii {l : List Char} {x : Char} (h : x ∈ encChars l) :
    x.toNat < 128 := by
  rcases encChars_class h with hc | hc
  · exact alphanum_ascii hc
  · subst hc; decide

theorem decodeStrictChars_cons_ne {c : Char} (hc : c ≠ '%') (cs : List Char) :
    decodeStrictChars (c :: cs) = (decodeStrictChars cs).map (c :: ·) := by
  match cs with
  | [] => simp [decodeStrictChars, hc]
  | [x] => simp [decodeStrictChars, hc]
  | x :: y :: zs => simp [decodeStrictChars, hc]

theorem decodeLenientChars_cons_ne {c : Char} (hc : c ≠ '%') (hp : c ≠ '+')
    (cs : List Char) :
    decodeLenientChars (c :: cs) = c :: decodeLenientChars cs := by
  match cs with
  | [] => simp [decodeLenientChars, hc, hp]
  | [x] => simp [decodeLenientChars, hc, hp]
  | x :: y :: zs => simp [decodeLenientChars, hc, hp]

theorem decodeStrictChars_encChars {l : List Char} (h : ∀ x ∈ l, x.toNat < 128) :
    decodeStrictChars (encChars l) = some l := by
  induction l with
  | nil => simp [encChars, decodeStrictChars]
  | cons c cs ih =>
      rw [encChars, encChar]
      by_cases ha : c.isAlphanum
      · rw [if_pos ha]
        have hc : c ≠ '%' := by
          intro he
          rw [he] at ha
          exact absurd ha (by decide)
        rw [show ([c] ++ encChars cs) = c :: encChars cs from rfl,
          decodeStrictChars_cons_ne hc,
          ih (fun x hx => h x (List.mem_cons_of_mem _ hx))]
        rfl
      · rw [if_neg ha]
        have hhi : c.toNat % 256 / 16 < 16 := by omega
        have hlo : c.toNat % 16 < 16 := by omega
        rw [show (['%', hexDigitChar (c.toNat % 256 / 16), hexDigitChar (c.toNat % 16)] ++
            encChars cs) = '%' :: hexDigitChar (c.toNat % 256 / 16) ::
            hexDigitChar (c.toNat % 16) :: encChars cs from rfl]
        simp only [decodeStrictChars, hexVal_hexDigitChar hhi, hexVal_hexDigitChar hlo,
          ih (fun x hx => h x (List.mem_cons_of_mem _ hx)), Option.map_some']
        have hasc : c.toNat < 128 := h c (List.mem_cons_self _ _)
        have harith : 16 * (c.toNat % 256 / 16) + c.toNat % 16 = c.toNat := by omega
        rw [harith, Char.ofNat_toNat]

theorem decodeLenientChars_encChars {l : List Char} (h : ∀ x ∈ l, x.toNat < 128) :
    decodeLenientChars (encChars l) = l := by
  induction l with
  | nil => simp [encChars, decodeLenientChars]
  | cons c cs ih =>
      rw [encChars, encChar]
      by_cases ha : c.isAlphanum
      · rw [if_pos ha]
        have hc : c ≠ '%' := by
          intro he
          rw [he] at ha
          exact absurd ha (by decide)
        have hp : c ≠ '+' := by
          intro he
          rw [he] at ha
          exact absurd ha (by decide)
        rw [show ([c] ++ encChars cs) = c :: encChars cs from rfl,
          decodeLenientChars_cons_ne hc hp,
          ih (fun x hx => h x (List.mem_cons_of_mem _ hx))]
      · rw [if_neg ha]
        have hhi : c.toNat % 256 / 16 < 16 := by omega
        have hlo : c.toNat % 16 < 16 := by omega
        rw [show (['%', hexDigitChar (c.toNat % 256 / 16), hexDigitChar (c.toNat % 16)] ++
            encChars cs) = '%' :: hexDigitChar (c.toNat % 256 / 16) ::
            hexDigitChar (c.toNat % 16) :: encChars cs from rfl]
        simp only [decodeLenientChars, hexVal_hexDigitChar hhi, hexVal_hexDigitChar hlo,
          ih (fun x hx => h x (List.mem_cons_of_mem _ hx))]
        have hasc : c.toNat < 128 := h c (List.mem_cons_self _ _)
        have harith : 16 * (c.toNat % 256 / 16) + c.toNat % 16 = c.toNat := by omega
        rw [harith, Char.ofNat_toNat]

/-- ASCII strings, the scope of the encoding model. -/
def allAscii (s : String) : Prop := ∀ c ∈ s.data, c.toNat < 128

theorem decodeStrict_encodeM {s : String} (h : allAscii s) :
    decodeStrict (encodeURIComponentM s) = some s := by
  rcases s with ⟨l⟩
  simp only [decodeStrict, encodeURIComponentM, decodeStrictChars_encChars h,
    Option.map_some']

theorem decodeLenient_encodeM {s : String} (h : allAscii s) :
    decodeLenient (encodeURIComponentM s) = s := by
  rcases s with ⟨l⟩
  simp only [decodeLenient, encodeURIComponentM, decodeLenientChars_encChars h]

theorem encChars_length_ge (l : List Char) : l.length ≤ (encChars l).length := by
  induction l with
  | nil => simp [encChars]
  | cons c cs ih =>
      rw [encChars, encChar]
      by_cases ha : c.isAlphanum
      · rw [if_pos ha]
        simp only [List.length_append, List.length_cons, List.length_singleton]
        omega
      · rw [if_neg ha]
        simp only [List.length_append, List.length_cons]
        simp only [List.length_nil]
        omega

theorem encChars_ne_nil {l : List Char} (h : l ≠ []) : encChars l ≠ [] := by
  cases l with
  | nil => exact absurd rfl h
  | cons c cs =>
      rw [encChars, encChar]
      by_cases ha : c.isAlphanum
      · rw [if_pos ha]; simp
      · rw [if_neg ha]; simp

theorem breakFirst_not_mem {c : Char} {l : List Char} (h : c ∉ l) :
    breakFirst c l = (l, none) := by
  induction l with
  | nil => rfl
  | cons x xs ih =>
      have hx : x ≠ c := fun he => h (he ▸ List.mem_cons_self _ _)
      rw [breakFirst, if_neg hx, ih (fun hm => h (List.mem_cons_of_mem _ hm))]

theorem breakFirst_append_first {c : Char} {a b : List Char} (h : c ∉ a) :
    breakFirst c (a ++ c :: b) = (a, some b) := by
  induction a with
  | nil => simp [breakFirst]
  | cons x xs ih =>
      have hx : x ≠ c := fun he => h (he ▸ List.mem_cons_self _ _)
      rw [List.cons_append, breakFirst, if_neg hx,
        ih (fun hm => h (List.mem_cons_of_mem _ hm))]

theorem splitAll_not_mem {c : Char} {l : List Char} (h : c ∉ l) :
    splitAll c l = [l] := by
  induction l with
  | nil => rfl
  | cons x xs ih =>
      have hx : x ≠ c := fun he => h (he ▸ List.mem_cons_self _ _)
      rw [splitAll, if_neg hx, ih (fun hm => h (List.mem_cons_of_mem _ hm))]

/-- Parsing the wrapper shape `http://g.co/?u=Y` for a query payload `Y`
containing only alphanumerics and percent signs. -/
theorem parseURL_wrapper (Y : List Char)
    (hY : ∀ x ∈ Y, x.isAlphanum = true ∨ x = '%') :
    parseURL ⟨"http://g.co/?u=".data ++ Y⟩ =
      some ⟨"http", "g.co", none, "/", [("u", decodeLenient ⟨Y⟩)], none⟩ := by
  have hmem : ∀ c : Char, c.isAlphanum = false → c ≠ '%' → c ∉ Y := by
    intro c h1 h2 hm
    rcases hY c hm with h | h
    · rw [h1] at h; cases h
    · exact h2 h
  have hdata : (⟨"http://g.co/?u=".data ++ Y⟩ : String).data = "http://g.co/?u=".data ++ Y := rfl
  rw [parseURL]
  rw [hdata]
  have hhash : breakFirst '#' ("http://g.co/?u=".data ++ Y) =
      ("http://g.co/?u=".data ++ Y, none) :=
    breakFirst_not_mem (by
      intro hm
      rcases List.mem_append.mp hm with hm | hm
      · revert hm; decide
      · exact hmem '#' (by decide) (by decide) hm)
  rw [hhash]
  have hsplit : "http://g.co/?u=".data ++ Y = "http://g.co/".data ++ '?' :: ("u=".data ++ Y) := rfl
  rw [hsplit]
  have hqm : breakFirst '?' ("http://g.co/".data ++ '?' :: ("u=".data ++ Y)) =
      ("http://g.co/".data, some ("u=".data ++ Y)) :=
    breakFirst_append_first (by decide)
  rw [hqm]
  have hcolon : breakFirst ':' "http://g.co/".data =
      ("http".data, some "//g.co/".data) := by decide
  rw [hcolon]
  simp only
  have hquery : parseQuery (['u', '='] ++ Y) = [("u", decodeLenient ⟨Y⟩)] := by
    rw [parseQuery]
    have hamp : splitAll '&' (['u', '='] ++ Y) = [(['u', '='] ++ Y)] :=
      splitAll_not_mem (by
        intro hm
        rcases List.mem_append.mp hm with hm | hm
        · revert hm; decide
        · exact hmem '&' (by decide) (by decide) hm)
    rw [hamp]
    simp only [List.filterMap]
    rw [parseQueryPiece]
    rw [show (['u', '='] ++ Y : List Char) = ['u'] ++ '=' :: Y from rfl]
    rw [breakFirst_append_first (by decide)]
    simp [decodeLenient, decodeLenientChars]
  rw [hquery]
  rfl

theorem containsSub_go_append {a b p : List Char} (h : containsSub.go a p = true) :
    containsSub.go (a ++ b) p = true := by
  induction a with
  | nil =>
      cases p with
      | nil => cases b <;> rfl
      | cons c cs => rw [containsSub.go] at h; cases h
  | cons c cs ih =>
      rw [List.cons_append]
      cases p with
      | nil => rfl
      | cons p₀ ps =>
          rw [show containsSub.go (c :: cs) (p₀ :: ps) =
            ((p₀ :: ps).isPrefixOf (c :: cs) || containsSub.go cs (p₀ :: ps)) from rfl] at h
          rcases Bool.or_eq_true_iff.mp h with h | h
          · have hpre := List.isPrefixOf_iff_prefix.mp h
            rw [show containsSub.go (c :: (cs ++ b)) (p₀ :: ps) =
              ((p₀ :: ps).isPrefixOf (c :: (cs ++ b)) || containsSub.go (cs ++ b) (p₀ :: ps)) from rfl]
            apply Bool.or_eq_true_iff.mpr
            left
            exact List.isPrefixOf_iff_prefix.mpr
              (hpre.trans (by rw [← List.cons_append]; exact List.prefix_append _ _))
          · rw [show containsSub.go (c :: (cs ++ b)) (p₀ :: ps) =
              ((p₀ :: ps).isPrefixOf (c :: (cs ++ b)) || containsSub.go (cs ++ b) (p₀ :: ps)) from rfl]
            apply Bool.or_eq_true_iff.mpr
            right
            exact ih h

theorem containsSub_append_left {a : String} (b : String) {pat : String}
    (h : containsSub a pat = true) : containsSub (a ++ b) pat = true := by
  rw [containsSub] at h ⊢
  rw [String.data_append]
  exact containsSub_go_append h

/-- The `clean` recursion wrapper used for the nested-redirection chain:
`wrapRedirect s` is a `g.co` URL whose redirection parameter `u` carries a
doubly-encoded `s` (`searchParams.get` undoes one layer, the explicit
`decodeURIComponent` in `clean` undoes the other, so one `clean` level
unwraps exactly one `wrapRedirect`). -/
def wrapRedirect (s : String) : String :=
  "http://g.co/?u=" ++ encodeURIComponentM (encodeURIComponentM s)

/-- The parsed form of `wrapRedirect s`. -/
def c3WUrl (s : String) : Url :=
  ⟨"http", "g.co", none, "/", [("u", encodeURIComponentM s)], none⟩

theorem parseURL_wrapRedirect (s : String) :
    parseURL (wrapRedirect s) = some (c3WUrl s) := by
  have h := parseURL_wrapper (encChars (encChars s.data)) (fun x hx => encChars_class hx)
  rw [wrapRedirect,
    show ("http://g.co/?u=" ++ encodeURIComponentM (encodeURIComponentM s) : String) =
      ⟨"http://g.co/?u=".data ++ encChars (encChars s.data)⟩ from rfl, h, c3WUrl]
  have hdec : decodeLenient ⟨encChars (encChars s.data)⟩ = encodeURIComponentM s := by
    exact @decodeLenient_encodeM (encodeURIComponentM s) (fun c hc => encChars_ascii hc)
  rw [hdec]

def c3Prov : CachedProviderRule :=
  ⟨some (fun h => containsSub h "g.co"), none, none, some (fun k => k == "u"), none⟩

def c3Rules : LinkCleaner := ⟨[("g.co", c3Prov)]⟩

def c3Base : String := "http://e.org/done"

def c3BaseUrl : Url := ⟨"http", "e.org", none, "/done", [], none⟩

/-- A chain of `n` nested redirections around the fixed base URL. -/
def chainC3 : Nat → String
  | 0 => c3Base
  | n + 1 => wrapRedirect (chainC3 n)

theorem cleanObjF_empty_query {R : LinkCleaner} {f : Nat} {u : Url}
    (h : u.query = []) : cleanObjF R f u = u := by
  cases f with
  | zero => rfl
  | succ f => simp [cleanObjF, h]

theorem string_ne_empty_of_data {s : String} (h : s.data ≠ []) : s ≠ "" := by
  intro he
  rw [he] at h
  exact h rfl

theorem wrapRedirect_ne_empty (s : String) : wrapRedirect s ≠ "" := by
  apply string_ne_empty_of_data
  rw [wrapRedirect, String.data_append]
  simp [encodeURIComponentM]

theorem chainC3_ne_empty : ∀ n, chainC3 n ≠ ""
  | 0 => by rw [chainC3]; decide
  | n + 1 => by rw [chainC3]; exact wrapRedirect_ne_empty _

theorem chainC3_ascii : ∀ n, allAscii (chainC3 n)
  | 0 => by
      rw [chainC3]
      have H : ∀ c ∈ c3Base.data, c.toNat < 128 := by decide
      exact fun c hc => H c hc
  | n + 1 => by
      rw [chainC3, wrapRedirect]
      intro c hc
      rw [String.data_append] at hc
      have H : ∀ x ∈ "http://g.co/?u=".data, x.toNat < 128 := by decide
      rcases List.mem_append.mp hc with hc | hc
      · exact H c hc
      · exact encChars_ascii hc

theorem encodeM_ne_empty {s : String} (h : s ≠ "") : encodeURIComponentM s ≠ "" := by
  apply string_ne_empty_of_data
  rw [encodeURIComponentM]
  apply encChars_ne_nil
  intro hd
  apply h
  rcases s with ⟨l⟩
  rw [show (⟨l⟩ : String).data = l from rfl] at hd
  rw [hd]

/-- One `clean` level unwraps one `wrapRedirect` level: the provider is
found via its `urlPattern` on the href, the `u` parameter matches the
redirection pattern, its value double-decodes to `s`, and the recursive
clean is returned. -/
theorem c3_step (f : Nat) {s : String} {u' : Url}
    (hs : allAscii s) (hne : s ≠ "") (hpu : parseURL s = some u') :
    cleanObjF c3Rules (f + 1) (c3WUrl s) = cleanObjF c3Rules f u' := by
  rw [cleanObjF]
  have hq : (c3WUrl s).query.isEmpty = false := rfl
  rw [hq]
  simp only [Bool.false_eq_true, if_false]
  have hg : applyGlobal c3Rules (c3WUrl s) = c3WUrl s := rfl
  rw [hg]
  have hcont : containsSub (serializeUrl (c3WUrl s)) "g.co" = true := by
    have hser : serializeUrl (c3WUrl s) =
        "http://g.co/?u=" ++ encodeURIComponentM (encodeURIComponentM s) := by
      simp only [serializeUrl, c3WUrl]
      apply String.ext
      simp only [String.data_append, List.append_assoc, List.append_nil]
      rfl
    rw [hser]
    exact containsSub_append_left _ (by decide)
  have hf : findProvider c3Rules (c3WUrl s) = some c3Prov := by
    rw [findProvider]
    show findProviderAux (serializeUrl (c3WUrl s)) [("g.co", c3Prov)] = some c3Prov
    rw [findProviderAux]
    rw [if_neg (by decide)]
    rw [if_pos (by exact hcont)]
    rw [if_neg (by simp [matchesPattern, c3Prov])]
  rw [hf]
  dsimp only
  rw [if_pos (by rfl)]
  have hkeys : (c3WUrl s).query.map (fun x => x.1) = ["u"] := rfl
  rw [hkeys]
  rw [redirectScan]
  rw [if_pos (by rfl)]
  have hget : searchGet (c3WUrl s).query "u" = some (encodeURIComponentM s) := rfl
  rw [hget]
  dsimp only
  rw [if_neg (encodeM_ne_empty hne)]
  rw [decodeStrict_encodeM hs]
  dsimp only
  rw [hpu]
  simp only [Option.map_some']

/-- C3 (amended): `clean` terminates on every input — the model's fuel,
one more than the total query-value length, is provably sufficient because
each recursive argument is strictly shorter — but no fixed maximum
recursion depth is implemented: a nested redirection chain of any depth
`n` (1,000 included) resolves fully to the innermost base URL,
deterministically and without error, rather than stopping at a fixed cap
with a best-effort result. -/
theorem c3_amended_unbounded_full_resolution :
    ∀ n, cleanStr c3Rules (chainC3 n) = .ok c3BaseUrl := by
  intro n
  induction n with
  | zero =>
      rw [chainC3, cleanStr]
      rw [show parseURL c3Base = some c3BaseUrl from by decide]
      dsimp only
      rw [cleanObjF_empty_query (show c3BaseUrl.query = [] from rfl)]
  | succ n ih =>
      rw [chainC3, cleanStr, parseURL_wrapRedirect]
      dsimp only
      cases hp : parseURL (chainC3 n) with
      | none => rw [cleanStr, hp] at ih; cases ih
      | some un =>
          rw [cleanStr, hp] at ih
          dsimp only at ih
          have hbase : cleanObjF c3Rules (urlFuel un) un = c3BaseUrl := by
            injection ih
          have hfuel1 : urlFuel (c3WUrl (chainC3 n)) =
              (encodeURIComponentM (chainC3 n)).length + 1 := by
            rw [urlFuel, valuesSum, c3WUrl, valuesSumList]
            rfl
          rw [hfuel1]
          rw [c3_step _ (chainC3_ascii n) (chainC3_ne_empty n) hp]
          have hle : urlFuel un ≤ (encodeURIComponentM (chainC3 n)).length := by
            have h₁ := parse_valuesSum hp
            have h₂ : (chainC3 n).length ≤ (encodeURIComponentM (chainC3 n)).length := by
              rw [show (encodeURIComponentM (chainC3 n)).length =
                (encChars (chainC3 n).data).length from rfl,
                show (chainC3 n).length = (chainC3 n).data.length from rfl]
              exact encChars_length_ge _
            have h₃ : 1 ≤ (encodeURIComponentM (chainC3 n)).length := by
              have := encodeM_ne_empty (chainC3_ne_empty n)
              cases hc : (encodeURIComponentM (chainC3 n)).data with
              | nil =>
                  exfalso
                  apply this
                  rcases he : encodeURIComponentM (chainC3 n) with ⟨l⟩
                  rw [he] at hc
                  rw [show (⟨l⟩ : String).data = l from rfl] at hc
                  rw [hc]
              | cons x xs =>
                  rw [show (encodeURIComponentM (chainC3 n)).length =
                    (encodeURIComponentM (chainC3 n)).data.length from rfl, hc]
                  simp
            rw [urlFuel]
            rcases h₁ with h₁ | h₁ <;> omega
          rw [cleanObjF_fuel_eq c3Rules _ un hle, hbase]

/-- Descent of the artificially depth-capped variant: with fuel `f`, the
cap is reached after unwrapping `f` levels and the then-current URL is
returned as-is. -/
theorem c3_capped_descent :
    ∀ f m, cleanObjF c3Rules f (c3WUrl (chainC3 (m + f))) = c3WUrl (chainC3 m) := by
  intro f
  induction f with
  | zero => intro m; rfl
  | succ f ih =>
      intro m
      have hstep := @c3_step f (chainC3 (m + f + 1)) (c3WUrl (chainC3 (m + f)))
        (chainC3_ascii _) (chainC3_ne_empty _)
        (by rw [show chainC3 (m + f + 1) = wrapRedirect (chainC3 (m + f)) from rfl,
          parseURL_wrapRedirect])
      rw [show m + (f + 1) = m + f + 1 from by omega, hstep, ih m]

/-- C3 counterexample: on a 12-deep nested redirection chain the code
resolves all 12 levels and returns the innermost `http://e.org/done`; a
depth-10-capped variant with graceful fallback (the model at fuel 10)
stops while still holding a `g.co` wrapper URL — so no fixed recursion
cap of 10 is implemented. -/
theorem c3_counterexample :
    cleanStr c3Rules (chainC3 12) = .ok c3BaseUrl ∧
    (parseURL (chainC3 12)).map (cleanObjF c3Rules 10) = some (c3WUrl (chainC3 1)) ∧
    (c3WUrl (chainC3 1)).host = "g.co" ∧
    c3BaseUrl.host = "e.org" ∧
    (parseURL (chainC3 12)).map (cleanObjF c3Rules 10) ≠ some c3BaseUrl := by
  have hcap : (parseURL (chainC3 12)).map (cleanObjF c3Rules 10) =
      some (c3WUrl (chainC3 1)) := by
    rw [show chainC3 12 = wrapRedirect (chainC3 11) from rfl, parseURL_wrapRedirect]
    simp only [Option.map_some']
    rw [show (11 : Nat) = 1 + 10 from rfl, c3_capped_descent 10 1]
  refine ⟨c3_amended_unbounded_full_resolution 12, hcap, rfl, rfl, ?_⟩
  rw [hcap]
  intro h
  have hh := congrArg (fun o => Option.map Url.host o) h
  simp only [Option.map_some'] at hh
  have hh2 : ("g.co" : String) = "e.org" := Option.some.inj hh
  exact absurd hh2 (by decide)

/-! ## The TrackerPixelRemover (src/unnamed/part_005) -/

/-- The element abstraction: attribute list; `getAttribute` returns the
first value for a name, or `none` for a missing attribute. -/
structure SanitizableElement where
  attrs : List (String × String)
deriving DecidableEq, Repr

def getAttribute (e : SanitizableElement) (name : String) : Option String :=
  (e.attrs.find? (fun kv => kv.1 == name)).map (·.2)

structure TrackerPixelRemoverOptions where
  maxPixelSize : Nat
  trackingDomains : List String
  trackingParams : List String
  removeNoAltImages : Bool
  removeTransparentImages : Bool

def DEFAULT_OPTIONS : TrackerPixelRemoverOptions :=
  { maxPixelSize := 2
    trackingDomains :=
      ["google-analytics.com", "googletagmanager.com", "doubleclick.net",
       "facebook.com", "connect.facebook.net", "scorecardresearch.com",
       "quantserve.com", "outbrain.com", "taboola.com", "adsystem.com",
       "amazon-adsystem.com", "googlesyndication.com", "googleadservices.com",
       "twitter.com", "linkedin.com", "pinterest.com", "snapchat.com",
       "tiktok.com", "hubspot.com", "mailchimp.com", "constantcontact.com",
       "sendgrid.net", "mailgun.org", "createsend.com", "campaign-monitor.com",
       "aweber.com", "getresponse.com", "convertkit.com", "activecampaign.com",
       "drip.com", "klaviyo.com", "omnisend.com", "sendinblue.com",
       "emailoctopus.com", "moosend.com", "pardot.com", "marketo.com",
       "eloqua.com", "salesforce.com"]
    trackingParams :=
      ["utm_source", "utm_medium", "utm_campaign", "utm_content", "utm_term",
       "fbclid", "gclid", "msclkid", "twclid", "li_fat_id", "mc_cid", "mc_eid",
       "_hsenc", "_hsmi", "mkt_tok", "vero_id", "vero_conv", "email_id",
       "recipient_id", "list_id", "campaign_id", "message_id", "subscriber_id",
       "tracking_id", "pixel_id", "beacon_id"]
    removeNoAltImages := true
    removeTransparentImages := true }

def toLowerStr (s : String) : String := ⟨s.data.map Char.toLower⟩

def endsWithStr (s suffix : String) : Bool := suffix.data.isSuffixOf s.data

def startsWithStr (s pre : String) : Bool := pre.data.isPrefixOf s.data

def trimStr (s : String) : String :=
  ⟨((s.data.dropWhile (fun c => isWsChar c)).reverse.dropWhile (fun c => isWsChar c)).reverse⟩

def digitsToNat (l : List Char) : Nat :=
  l.foldl (fun acc c => 10 * acc + (c.toNat - 48)) 0

/-- `getDimension`: the anchored match `/^(\d+)(?:px)?$/i` on an attribute
value, `null` propagated for a missing or empty value. -/
def getDimension (dimension : Option String) : Option Nat :=
  match dimension with
  | none => none
  | some s =>
      if s = "" then none
      else
        let digits := s.data.takeWhile Char.isDigit
        let rest := s.data.drop digits.length
        if digits.isEmpty then none
        else
          match rest with
          | [] => some (digitsToNat digits)
          | [p, x] =>
              if (p = 'p' ∨ p = 'P') ∧ (x = 'x' ∨ x = 'X') then
                some (digitsToNat digits)
              else none
          | _ => none

def skipWsChars (l : List Char) : List Char := l.dropWhile (fun c => isWsChar c)

/-- Case-insensitive literal match of `key` at the front of `l`; `some`
holds the remaining characters. -/
def matchKeyCI : List Char → List Char → Option (List Char)
  | [], l => some l
  | _ :: _, [] => none
  | k :: ks, c :: cs => if c.toLower = k.toLower then matchKeyCI ks cs else none

/-- After a style property key: `\s*:\s*(-?\d+)px` (the minus only when
`allowNeg`), as matched by the code's style regexes. -/
def matchNumAfterKey (allowNeg : Bool) (l : List Char) : Option Int :=
  match skipWsChars l with
  | ':' :: l₂ =>
      let l₃ := skipWsChars l₂
      let negRest : Bool × List Char :=
        match l₃ with
        | '-' :: r => (true, r)
        | _ => (false, l₃)
      if negRest.1 ∧ ¬allowNeg then none
      else
        let digits := negRest.2.takeWhile Char.isDigit
        if digits.isEmpty then none
        else
          let rest := negRest.2.drop digits.length
          let v : Int :=
            if negRest.1 then -(Int.ofNat (digitsToNat digits))
            else Int.ofNat (digitsToNat digits)
          match rest with
          | p :: x :: _ =>
              if (p = 'p' ∨ p = 'P') ∧ (x = 'x' ∨ x = 'X') then some v else none
          | _ => none
  | _ => none

/-- First match of `/key\s*:\s*(-?\d+)px/i` in a style string: try every
start offset left to right, as a regex engine does. -/
def scanStyleNum (key : List Char) (allowNeg : Bool) : List Char → Option Int
  | [] => none
  | c :: cs =>
      match (matchKeyCI key (c :: cs)).bind (matchNumAfterKey allowNeg) with
      | some v => some v
      | none => scanStyleNum key allowNeg cs

/-- The `([\d.]+)` capture of `/opacity\s*:\s*([\d.]+)/i` after the key. -/
def matchOpacityAfterKey (l : List Char) : Option (List Char) :=
  match skipWsChars l with
  | ':' :: l₂ =>
      let cap := (skipWsChars l₂).takeWhile (fun c => c.isDigit ∨ c = '.')
      if cap.isEmpty then none else some cap
  | _ => none

def scanOpacity : List Char → Option (List Char)
  | [] => none
  | c :: cs =>
      match (matchKeyCI "opacity".data (c :: cs)).bind matchOpacityAfterKey with
      | some v => some v
      | none => scanOpacity cs

/-- `parseFloat(capture) === 0` for a `[\d.]+` capture: the leading
`digits[.digits]` prefix exists and consists of zeros only. -/
def parseFloatIsZero (cap : List Char) : Bool :=
  let d₁ := cap.takeWhile Char.isDigit
  let rest := cap.drop d₁.length
  let d₂ :=
    match rest with
    | '.' :: r => r.takeWhile Char.isDigit
    | _ => []
  decide (d₁ ++ d₂ ≠ [] ∧ ∀ c ∈ d₁ ++ d₂, c = '0')

def hasTrackingDomain (opts : TrackerPixelRemoverOptions)
    (img : SanitizableElement) : Bool :=
  match getAttribute img "src" with
  | none => false
  | some src =>
      if src = "" then false
      else
        match parseURL src with
        | some url =>
            let hostname := toLowerStr url.host
            opts.trackingDomains.any fun domain =>
              hostname == domain || endsWithStr hostname ("." ++ domain)
        | none =>
            let srcLower := toLowerStr src
            opts.trackingDomains.any fun domain => containsSub srcLower domain

def hasTrackingParameters (opts : TrackerPixelRemoverOptions)
    (img : SanitizableElement) : Bool :=
  match getAttribute img "src" with
  | none => false
  | some src =>
      if src = "" then false
      else
        match parseURL src with
        | some url =>
            opts.trackingParams.any fun tp => url.query.any fun kv => kv.1 == tp
        | none =>
            let srcLower := toLowerStr src
            opts.trackingParams.any fun param => containsSub srcLower (param ++ "=")

def hasNoAltText (img : SanitizableElement) : Bool :=
  match getAttribute img "alt" with
  | none => true
  | some alt => trimStr alt == ""

def transparentGif : String :=
  "data:image/gif;base64,R0lGODlhAQABAIAAAAAAAP///yH5BAEAAAAALAAAAAABAAEAAAIBRAA7"

def transparentPng : String :=
  "data:image/png;base64,iVBORw0KGgoAAAANSUhEUgAAAAEAAAABCAYAAAAfFcSJAAAADUlEQVR42mNkYPhfDwAChwGA60e6kgAAAABJRU5ErkJggg=="

def isTransparent (img : SanitizableElement) : Bool :=
  match getAttribute img "src" with
  | none => false
  | some src =>
      if src = "" then false
      else if src == transparentGif || src == transparentPng then true
      else if startsWithStr src "data:image/" && containsSub src "transparent" then true
      else
        match getAttribute img "style" with
        | none => false
        | some style =>
            if style = "" then false
            else
              match scanOpacity style.data with
              | some cap => parseFloatIsZero cap
              | none => false

def isHidden (img : SanitizableElement) : Bool :=
  match getAttribute img "style" with
  | none => false
  | some style =>
      if style = "" then false
      else
        let styleLower := toLowerStr style
        if containsSub styleLower "display:none" ||
            containsSub styleLower "display: none" then true
        else if containsSub styleLower "visibility:hidden" ||
            containsSub styleLower "visibility: hidden" then true
        else if containsSub styleLower "position:absolute" ||
            containsSub styleLower "position: absolute" then
          (match scanStyleNum "left".data true style.data with
            | some n => n < -1000
            | none => false) ||
          (match scanStyleNum "top".data true style.data with
            | some n => n < -1000
            | none => false)
        else false

def hasTrackingPixelDimensions (opts : TrackerPixelRemoverOptions)
    (img : SanitizableElement) : Bool :=
  match getDimension (getAttribute img "width"),
      getDimension (getAttribute img "height") with
  | some w, some h => decide (w ≤ opts.maxPixelSize ∧ h ≤ opts.maxPixelSize)
  | _, _ =>
      match getAttribute img "style" with
      | none => false
      | some style =>
          if style = "" then false
          else
            match scanStyleNum "width".data false style.data,
                scanStyleNum "height".data false style.data with
            | some w, some h =>
                decide (w ≤ (opts.maxPixelSize : Int) ∧ h ≤ (opts.maxPixelSize : Int))
            | _, _ => false

def isTrackingPixel (opts : TrackerPixelRemoverOptions)
    (img : SanitizableElement) : Bool :=
  if hasTrackingDomain opts img then true
  else if hasTrackingParameters opts img then true
  else if isHidden img then true
  else
    let hasSmallDimensions := hasTrackingPixelDimensions opts img
    let hasNoAlt := opts.removeNoAltImages && hasNoAltText img
    let isTransp := opts.removeTransparentImages && isTransparent img
    if hasSmallDimensions && hasNoAlt then true
    else if isTransp && hasNoAlt then true
    else if hasSmallDimensions && isTransp then true
    else false

/-- `TrackerPixelRemover.clean` over a document modelled as its list of
`img` elements: classified elements are removed, the rest kept in order,
and the removal count is returned. -/
def pixelRemoverClean (opts : TrackerPixelRemoverOptions)
    (doc : List SanitizableElement) : List SanitizableElement × Nat :=
  (doc.filter (fun e => !(isTrackingPixel opts e)),
    (doc.filter (fun e => isTrackingPixel opts e)).length)

section PixelExamples

example :
    isTrackingPixel DEFAULT_OPTIONS ⟨[("src", "https://example.com/image.jpg"),
      ("alt", "Normal image"), ("width", "200"), ("height", "150")]⟩ = false := by decide

example :
    isTrackingPixel DEFAULT_OPTIONS ⟨[("src", "https://example.com/pixel.gif"),
      ("width", "1"), ("height", "1")]⟩ = true := by decide

example :
    isTrackingPixel DEFAULT_OPTIONS ⟨[("src", "pixel.gif"),
      ("style", "width: 1px; height: 1px;")]⟩ = true := by decide

example :
    isTrackingPixel DEFAULT_OPTIONS
      ⟨[("src", "https://stats.google-analytics.com/pixel.gif")]⟩ = true := by decide

example :
    isTrackingPixel DEFAULT_OPTIONS
      ⟨[("src", "https://example.com/pixel.gif?utm_source=email&utm_campaign=newsletter")]⟩ =
      true := by decide

example :
    isTrackingPixel DEFAULT_OPTIONS ⟨[("src", "https://example.com/image.jpg?id=123"),
      ("alt", "x"), ("width", "50"), ("height", "50")]⟩ = false := by decide

example :
    isTrackingPixel DEFAULT_OPTIONS ⟨[("src", "pixel.gif"),
      ("style", "display: none;")]⟩ = true := by decide

example :
    isTrackingPixel DEFAULT_OPTIONS ⟨[("alt", "no src")]⟩ = false := by decide

example :
    isTrackingPixel DEFAULT_OPTIONS ⟨[("src", ""), ("alt", "empty src")]⟩ = false := by decide

example : isTrackingPixel DEFAULT_OPTIONS ⟨[("src", transparentGif)]⟩ = true := by decide

end PixelExamples

/-! ## C7, C8, C9 -/

theorem isTrackingPixel_of_isHidden {opts : TrackerPixelRemoverOptions}
    {e : SanitizableElement} (h : isHidden e = true) :
    isTrackingPixel opts e = true := by
  rw [isTrackingPixel]
  cases htd : hasTrackingDomain opts e <;>
    cases htp : hasTrackingParameters opts e <;>
      simp [h]

def c7CexElem : SanitizableElement := ⟨[("style", "display:none")]⟩

/-- C7 counterexample: an element with no `src` attribute at all but an
inline `display:none` style is classified as a tracking pixel —
`isTrackingPixel` has no early src guard and still evaluates the
visibility signal. -/
theorem c7_counterexample :
    getAttribute c7CexElem "src" = none ∧
    isTrackingPixel DEFAULT_OPTIONS c7CexElem = true :=
  ⟨rfl, by decide⟩

/-- C7 (amended): a missing or empty `src` silences only the
src-dependent signals (domain, parameter, transparency), each of which
individually returns false; the visibility, dimension and alt-text signals
are still evaluated, so `isTrackingPixel` on such an element equals
`isHidden || (small dimensions && no-alt-allowed && no alt text)` and can
be true. -/
theorem c7_amended_no_src_guard (opts : TrackerPixelRemoverOptions)
    (e : SanitizableElement)
    (h : getAttribute e "src" = none ∨ getAttribute e "src" = some "") :
    hasTrackingDomain opts e = false ∧ hasTrackingParameters opts e = false ∧
    isTransparent e = false ∧
    isTrackingPixel opts e =
      (isHidden e || (hasTrackingPixelDimensions opts e &&
        (opts.removeNoAltImages && hasNoAltText e))) := by
  have hd : hasTrackingDomain opts e = false := by
    rcases h with h | h <;> rw [hasTrackingDomain, h] <;> rfl
  have hp : hasTrackingParameters opts e = false := by
    rcases h with h | h <;> rw [hasTrackingParameters, h] <;> rfl
  have ht : isTransparent e = false := by
    rcases h with h | h <;> rw [isTransparent, h] <;> rfl
  refine ⟨hd, hp, ht, ?_⟩
  rw [isTrackingPixel, hd, hp]
  simp only [Bool.false_eq_true, if_false, ht, Bool.and_false]
  cases hH : isHidden e <;>
    cases hD : hasTrackingPixelDimensions opts e <;>
      cases hA : opts.removeNoAltImages && hasNoAltText e <;>
        simp

def c7WitElem : SanitizableElement := ⟨[("width", "1"), ("height", "1")]⟩

/-- C7 witness: a src-less `1×1` element with no alt text is classified
via the amended equation (dimensions + no alt), evaluating to `true`. -/
theorem c7_witness :
    isTrackingPixel DEFAULT_OPTIONS c7WitElem =
      (isHidden c7WitElem || (hasTrackingPixelDimensions DEFAULT_OPTIONS c7WitElem &&
        (DEFAULT_OPTIONS.removeNoAltImages && hasNoAltText c7WitElem))) ∧
    isTrackingPixel DEFAULT_OPTIONS c7WitElem = true :=
  ⟨(c7_amended_no_src_guard DEFAULT_OPTIONS c7WitElem (Or.inl rfl)).2.2.2, by decide⟩

/-- C8: under default options, an image with `width=1 height=1` attributes
and no alt text is classified as a tracking pixel and removed by `clean`;
the same `1×1` image with a descriptive (non-whitespace) alt text is kept
when no strong signal (tracking domain, tracking parameter, hidden style)
and no transparency signal is present. -/
theorem c8_pixel_boundary (e : SanitizableElement)
    (hw : getAttribute e "width" = some "1")
    (hh : getAttribute e "height" = some "1") :
    (getAttribute e "alt" = none →
      isTrackingPixel DEFAULT_OPTIONS e = true ∧
      pixelRemoverClean DEFAULT_OPTIONS [e] = ([], 1)) ∧
    (∀ a, getAttribute e "alt" = some a → trimStr a ≠ "" →
      hasTrackingDomain DEFAULT_OPTIONS e = false →
      hasTrackingParameters DEFAULT_OPTIONS e = false →
      isHidden e = false → isTransparent e = false →
      isTrackingPixel DEFAULT_OPTIONS e = false ∧
      pixelRemoverClean DEFAULT_OPTIONS [e] = ([e], 0)) := by
  have hdim : hasTrackingPixelDimensions DEFAULT_OPTIONS e = true := by
    rw [hasTrackingPixelDimensions, hw, hh]
    rfl
  constructor
  · intro halt
    have hna : hasNoAltText e = true := by rw [hasNoAltText, halt]
    have hclass : isTrackingPixel DEFAULT_OPTIONS e = true := by
      rw [isTrackingPixel]
      cases htd : hasTrackingDomain DEFAULT_OPTIONS e <;>
        cases htp : hasTrackingParameters DEFAULT_OPTIONS e <;>
          cases hH : isHidden e <;>
            simp [hdim, hna, show DEFAULT_OPTIONS.removeNoAltImages = true from rfl]
    exact ⟨hclass, by simp [pixelRemoverClean, hclass]⟩
  · intro a halt hane htd htp hH htr
    have hna : hasNoAltText e = false := by
      rw [hasNoAltText, halt]
      exact beq_eq_false_iff_ne.mpr hane
    have hclass : isTrackingPixel DEFAULT_OPTIONS e = false := by
      rw [isTrackingPixel, htd, htp, hH]
      simp [hna, htr, hdim]
    exact ⟨hclass, by simp [pixelRemoverClean, hclass]⟩

def c8WitElemA : SanitizableElement :=
  ⟨[("src", "https://ex.org/p.gif"), ("width", "1"), ("height", "1")]⟩

def c8WitElemB : SanitizableElement :=
  ⟨[("src", "https://ex.org/p.gif"), ("width", "1"), ("height", "1"),
    ("alt", "Company logo")]⟩

/-- C8 witness: the two sides of the boundary on concrete `1×1` images. -/
theorem c8_witness :
    (isTrackingPixel DEFAULT_OPTIONS c8WitElemA = true ∧
      pixelRemoverClean DEFAULT_OPTIONS [c8WitElemA] = ([], 1)) ∧
    (isTrackingPixel DEFAULT_OPTIONS c8WitElemB = false ∧
      pixelRemoverClean DEFAULT_OPTIONS [c8WitElemB] = ([c8WitElemB], 0)) :=
  ⟨(c8_pixel_boundary c8WitElemA rfl rfl).1 rfl,
    (c8_pixel_boundary c8WitElemB rfl rfl).2 "Company logo" rfl (by decide)
      (by decide) (by decide) (by decide) (by decide)⟩

def c9CexElem : SanitizableElement :=
  ⟨[("src", "https://ex.org/a.png"), ("style", "display : none")]⟩

/-- C9 counterexample: the style `display : none` (whitespace before the
colon) indicates `display: none`, but `isHidden` only looks for the exact
substrings `display:none` and `display: none`, so the visibility signal
does not fire and the element is not classified as a tracking pixel. -/
theorem c9_counterexample :
    getAttribute c9CexElem "style" = some "display : none" ∧
    isHidden c9CexElem = false ∧
    isTrackingPixel DEFAULT_OPTIONS c9CexElem = false :=
  ⟨rfl, by decide, by decide⟩

/-- C9 (amended): the visibility signal fires — and forces removal — for a
style containing, case-insensitively, the exact substrings `display:none`
or `display: none` (zero or one space after the colon, none before),
`visibility:hidden` or `visibility: hidden`, or `position:absolute` /
`position: absolute` combined with a `left` or `top` declaration (this one
fully whitespace-tolerant around its colon) whose pixel offset is more
negative than −1000. -/
theorem c9_amended_visibility_matching (opts : TrackerPixelRemoverOptions)
    (e : SanitizableElement) (style : String)
    (hst : getAttribute e "style" = some style)
    (hne : style ≠ "")
    (hcond :
      containsSub (toLowerStr style) "display:none" = true ∨
      containsSub (toLowerStr style) "display: none" = true ∨
      containsSub (toLowerStr style) "visibility:hidden" = true ∨
      containsSub (toLowerStr style) "visibility: hidden" = true ∨
      ((containsSub (toLowerStr style) "position:absolute" = true ∨
        containsSub (toLowerStr style) "position: absolute" = true) ∧
       ((∃ n, scanStyleNum "left".data true style.data = some n ∧ n < -1000) ∨
        (∃ n, scanStyleNum "top".data true style.data = some n ∧ n < -1000)))) :
    isHidden e = true ∧ isTrackingPixel opts e = true := by
  have hh : isHidden e = true := by
    rw [isHidden, hst]
    dsimp only
    rw [if_neg hne]
    by_cases h₁ : containsSub (toLowerStr style) "display:none" ||
        containsSub (toLowerStr style) "display: none"
    · simp only [h₁, if_true]
    · rw [if_neg (by simp [h₁])]
      have hnd : containsSub (toLowerStr style) "display:none" = false ∧
          containsSub (toLowerStr style) "display: none" = false := by
        constructor <;> (cases hc : containsSub (toLowerStr style) _ <;> simp_all)
      by_cases h₂ : containsSub (toLowerStr style) "visibility:hidden" ||
          containsSub (toLowerStr style) "visibility: hidden"
      · simp only [h₂, if_true]
      · rw [if_neg (by simp [h₂])]
        have hnv : containsSub (toLowerStr style) "visibility:hidden" = false ∧
            containsSub (toLowerStr style) "visibility: hidden" = false := by
          constructor <;> (cases hc : containsSub (toLowerStr style) _ <;> simp_all)
        rcases hcond with h | h | h | h | ⟨hpos, hoff⟩
        · rw [h] at hnd; cases hnd.1
        · rw [h] at hnd; cases hnd.2
        · rw [h] at hnv; cases hnv.1
        · rw [h] at hnv; cases hnv.2
        · rw [if_pos (by rcases hpos with hp | hp <;> simp [hp])]
          rcases hoff with ⟨n, hn, hlt⟩ | ⟨n, hn, hlt⟩
          · rw [hn]
            simp [hlt]
          · rw [hn]
            simp [hlt]
  exact ⟨hh, isTrackingPixel_of_isHidden hh⟩

def c9WitElem : SanitizableElement :=
  ⟨[("style", "position:ABSOLUTE;left: -2000px")]⟩

/-- C9 witness: `position:ABSOLUTE;left: -2000px` — case-insensitive
position match, whitespace-tolerant left-offset match, offset below
−1000 — fires the visibility signal and the pixel is classified. -/
theorem c9_witness :
    isHidden c9WitElem = true ∧ isTrackingPixel DEFAULT_OPTIONS c9WitElem = true :=
  c9_amended_visibility_matching DEFAULT_OPTIONS c9WitElem
    "position:ABSOLUTE;left: -2000px" rfl (by decide)
    (Or.inr (Or.inr (Or.inr (Or.inr
      ⟨Or.inl (by decide), Or.inl ⟨-2000, by decide, by decide⟩⟩))))
